import Mathlib

set_option linter.unusedVariables false

/-!
Verification of the project-rename script (`rename-project.js`).

This file gives a shallow embedding of the script's pure core: the
project-name validator, the three artifact rewriters (package.json,
angular.json, README.md), the git-reinitialization orchestrator, the
interactive prompt loop, and the driver `main`, together with theorems
about them.

Modelling conventions:
 * File contents are Lean `String`s / `List Char`; the filesystem is passed
   explicitly (`Option String` = existence plus content).
 * JSON documents are modelled by the inductive type `Json` below; objects
   are association lists in insertion order, mirroring JavaScript object
   semantics after `JSON.parse` (numbers are modelled as integers).
 * `JSON.stringify(x, null, 2)` is `stringifyJson`, `JSON.parse` is
   `parseJson` (both executable).
 * External effects (`execSync`, `readline`) are passed in as explicit
   outcome environments; console output that the claims mention (warnings)
   is returned as data.
-/

/-! ## Character classes -/

/-- Lowercase ASCII letter, `[a-z]` in the name pattern. -/
def isLowerAlpha (c : Char) : Bool := 'a' ≤ c && c ≤ 'z'

/-- ASCII digit, `[0-9]` in the name pattern. -/
def isDigitCh (c : Char) : Bool := '0' ≤ c && c ≤ '9'

/-- Character class `[a-z0-9]` of the name pattern. -/
def isLowerAlnum (c : Char) : Bool := isLowerAlpha c || isDigitCh c

/-- Characters allowed anywhere in a kebab-case name: `[a-z0-9-]`. -/
def isKebabChar (c : Char) : Bool := isLowerAlnum c || c = '-'

/-- Whitespace recognized by JavaScript's `String.prototype.trim`
(ASCII part; exotic Unicode space characters are not modelled). -/
def isJsSpace (c : Char) : Bool :=
  c = ' ' || c = '\t' || c = '\n' || c = '\r' || c = '\x0b' || c = '\x0c'

/-! ## The project-name pattern

`PROJECT_NAME_PATTERN = /^[a-z][a-z0-9]*(-[a-z0-9]+)*$/` (source line 53),
embedded as an executable matcher over the character list. `patRest`
recognizes `[a-z0-9]*(-[a-z0-9]+)*`, `patGroup` recognizes the continuation
after a hyphen, `[a-z0-9]+(-[a-z0-9]+)*`. -/

mutual

/-- Matcher state after the leading letter: `[a-z0-9]*(-[a-z0-9]+)*$`. -/
def patRest : List Char → Bool
  | [] => true
  | c :: rest => if c = '-' then patGroup rest else isLowerAlnum c && patRest rest

/-- Matcher state right after a hyphen: `[a-z0-9]+(-[a-z0-9]+)*$`. -/
def patGroup : List Char → Bool
  | [] => false
  | c :: rest => isLowerAlnum c && patRest rest

end

/-- Full-string match of `^[a-z][a-z0-9]*(-[a-z0-9]+)*$`. -/
def patStart : List Char → Bool
  | [] => false
  | c :: rest => isLowerAlpha c && patRest rest

/-- Test of `PROJECT_NAME_PATTERN` on a string (`PROJECT_NAME_PATTERN.test name`). -/
def matchesPattern (s : String) : Bool := patStart s.data

/-- Modelled from the spec: a hyphen-joined group list, used only to state
the declarative reading of the grammar in spec section 3. -/
def joinHyphen : List (List Char) → List Char
  | [] => []
  | [g] => g
  | g :: g' :: gs => g ++ '-' :: joinHyphen (g' :: gs)

/-- Modelled from the spec: the first group of the grammar,
`[a-z][a-z0-9]*` — nonempty, leading lowercase letter, rest alphanumeric. -/
def GoodFirstGroup (g : List Char) : Prop :=
  ∃ c cs, g = c :: cs ∧ isLowerAlpha c = true ∧ ∀ d ∈ cs, isLowerAlnum d = true

/-- Modelled from the spec: a subsequent group of the grammar,
`[a-z0-9]+` — nonempty and alphanumeric. -/
def GoodGroup (g : List Char) : Prop :=
  g ≠ [] ∧ ∀ d ∈ g, isLowerAlnum d = true

/-- Modelled from the spec (section 3): a valid project identifier is a
nonempty sequence of hyphen-separated groups, the first matching
`[a-z][a-z0-9]*` and every later one matching `[a-z0-9]+`. -/
def IsKebabName (s : String) : Prop :=
  ∃ g gs, s.data = joinHyphen (g :: gs) ∧ GoodFirstGroup g ∧ ∀ h ∈ gs, GoodGroup h

/-! ## Trimming -/

/-- List-level trim of leading and trailing JavaScript whitespace. -/
def trimL (l : List Char) : List Char :=
  ((l.dropWhile isJsSpace).reverse.dropWhile isJsSpace).reverse

/-- JavaScript `String.prototype.trim` (ASCII whitespace). -/
def jsTrim (s : String) : String := String.mk (trimL s.data)

/-! ## validateProjectName (source lines 94-119) -/

/-- Result record of `validateProjectName`: `{ valid, error }`. -/
structure ValidationResult where
  valid : Bool
  error : Option String
deriving DecidableEq, Repr

/-- Error message for the empty / whitespace-only case (source line 99). -/
def emptyNameError : String := "Project name cannot be empty"

/-- Error message for a name that fails the pattern (source lines 107-113);
it carries the rejected value. -/
def invalidNameError (name : String) : String :=
  "Invalid project name: \"" ++ name ++ "\"\n" ++
  "   Project names must:\n" ++
  "   - Be in kebab-case format\n" ++
  "   - Start with a lowercase letter\n" ++
  "   - Contain only lowercase letters, numbers, and hyphens\n" ++
  "   - Not start or end with a hyphen\n\n" ++
  "   Examples: my-project, angular-app, todo-list-v2"

/-- Embedding of `validateProjectName` (source lines 94-119). The guard
`!name || name.trim() === ''` is, for actual strings, equivalent to the
trimmed string being empty. The pattern is tested on the original,
untrimmed string, exactly as in the source. -/
def validateProjectName (name : String) : ValidationResult :=
  if jsTrim name = "" then ⟨false, some emptyNameError⟩
  else if matchesPattern name then ⟨true, none⟩
  else ⟨false, some (invalidNameError name)⟩

/-! ## prompt and promptForNewName (source lines 413-459) -/

/-- Embedding of `prompt` (source lines 413-421): the readline answer is
resolved trimmed of leading/trailing whitespace. The readline interface
itself is modelled by passing the raw answer in. -/
def prompt (answer : String) : String := jsTrim answer

/-- Embedding of the validation loop of `promptForNewName` (source lines
443-458) against a stream of user answers; `none` models a stream that
runs out before a valid name is entered (the real loop would keep
blocking for input). -/
def promptForNewName : List String → Option String
  | [] => none
  | answer :: rest =>
    let newName := prompt answer
    if (validateProjectName newName).valid then some newName
    else promptForNewName rest

/-! ## Git orchestration (source lines 588-685) -/

/-- Outcome environment for the external processes `reinitializeGit` runs:
whether `git --version` succeeds, whether `.git` exists, and the result of
each subsequent external call (`Except` carries the thrown error message). -/
structure GitEnv where
  gitAvailable : Bool
  gitDirExists : Bool
  rmResult : Except String Unit
  initResult : Except String Unit
  addResult : Except String Unit
  commitResult : Except String Unit
deriving Repr

/-- The five stages of `reinitializeGit`, in source order. -/
inductive GitStep where
  | checkAvail | removeOldDir | gitInit | gitAdd | gitCommit
deriving DecidableEq, Repr

/-- Result of the orchestrator: the boolean it returns, the stages it
entered (in order), and the warnings it printed. -/
structure GitOutcome where
  ok : Bool
  steps : List GitStep
  warnings : List String
deriving DecidableEq, Repr

/-- Embedding of `checkGitAvailability` (source lines 588-600): succeeds
iff `git --version` can be executed. -/
def checkGitAvailability (env : GitEnv) : Bool := env.gitAvailable

/-- Embedding of `reinitializeGit` (source lines 625-685). Each stage is
recorded when entered; a failing stage appends its warning (containing the
underlying error text) and returns false immediately, skipping the rest.
The `.git` removal stage is a no-op when the directory does not exist. -/
def reinitializeGit (env : GitEnv) (newProjectName : String) : GitOutcome :=
  if !checkGitAvailability env then
    ⟨false, [GitStep.checkAvail],
      [ "Git is not available on this system. Skipping repository reinitialization.",
        "You can manually initialize Git later with: git init"]⟩
  else
    let entered0 := [GitStep.checkAvail, GitStep.removeOldDir]
    match (if env.gitDirExists then env.rmResult else Except.ok ()) with
    | Except.error e =>
      ⟨false, entered0, [ "Could not remove .git directory: " ++ e]⟩
    | Except.ok _ =>
      let entered1 := entered0 ++ [GitStep.gitInit]
      match env.initResult with
      | Except.error e =>
        ⟨false, entered1, [ "Could not initialize Git repository: " ++ e]⟩
      | Except.ok _ =>
        let entered2 := entered1 ++ [GitStep.gitAdd]
        match env.addResult with
        | Except.error e =>
          ⟨false, entered2, [ "Could not stage files: " ++ e]⟩
        | Except.ok _ =>
          let entered3 := entered2 ++ [GitStep.gitCommit]
          match env.commitResult with
          | Except.error e =>
            ⟨false, entered3, [ "Could not create initial commit: " ++ e]⟩
          | Except.ok _ => ⟨true, entered3, []⟩

/-! ## The driver main (source lines 722-827) -/

/-- Steps of `main`, in the order the source performs them. -/
inductive MainStep where
  | verifyFiles | readCurrentName | promptName
  | updPackage | updAngular | updReadme | gitReinit
deriving DecidableEq, Repr

/-- Outcome environment for one run of `main`: the command-line flag, and
the results of the fallible sub-calls. `currentName = none` models
`getCurrentProjectName` throwing (missing name field / malformed JSON);
`pkgExists = false` models `verifyRequiredFiles` throwing. The three
update results are the booleans the rewriters return, and `gitOk` is the
boolean `reinitializeGit` returns. -/
structure MainEnv where
  gitReset : Bool
  pkgExists : Bool
  currentName : Option String
  newName : String
  pkgOk : Bool
  angularOk : Bool
  readmeOk : Bool
  gitOk : Bool
deriving DecidableEq, Repr

/-- Embedding of the control flow of `main` (source lines 722-827),
returning the process exit code and the ordered list of steps performed.
Faithful points: after a failed package.json update the driver still runs
`updateAngularJson` and `updateReadme` (source lines 760-769) and only
then exits with code 2 (lines 773-778); git reinitialization runs only
when requested and after all three rewrites; its failure maps to exit
code 3 (lines 814-818); exceptions from setup map to exit code 1. -/
def mainRun (env : MainEnv) : Nat × List MainStep :=
  if !env.pkgExists then (1, [MainStep.verifyFiles])
  else
    match env.currentName with
    | none => (1, [MainStep.verifyFiles, MainStep.readCurrentName])
    | some _ =>
      let trace := [MainStep.verifyFiles, MainStep.readCurrentName,
                    MainStep.promptName, MainStep.updPackage,
                    MainStep.updAngular, MainStep.updReadme]
      if !env.pkgOk then (2, trace)
      else if env.gitReset then
        (if env.gitOk then 0 else 3, trace ++ [MainStep.gitReinit])
      else (0, trace)

/-! ## JSON values

JavaScript objects after `JSON.parse` are modelled as association lists in
insertion order; numbers are modelled as integers (the build-graph and
manifest files only use integral numbers; float formatting is out of
scope). -/

/-- JSON value. -/
inductive Json where
  | null : Json
  | bool (b : Bool) : Json
  | num (n : Int) : Json
  | str (s : String) : Json
  | arr (elems : List Json) : Json
  | obj (members : List (String × Json)) : Json
deriving Repr

/-- First binding of a key in an association list (JavaScript property
read; `JSON.parse` never produces duplicate keys). -/
def lookupMember : List (String × Json) → String → Option Json
  | [], _ => none
  | (k', v) :: rest, k => if k' = k then some v else lookupMember rest k

/-- JavaScript property assignment `o[k] = v`: overwrite in place if the
key exists, else append at the end. -/
def setMember : List (String × Json) → String → Json → List (String × Json)
  | [], k, v => [(k, v)]
  | (k', v') :: rest, k, v =>
    if k' = k then (k, v) :: rest else (k', v') :: setMember rest k v

/-- JavaScript `delete o[k]`. -/
def delMember : List (String × Json) → String → List (String × Json)
  | [], _ => []
  | (k', v') :: rest, k =>
    if k' = k then delMember rest k else (k', v') :: delMember rest k

/-- Property read `o[k]` as the script uses it: `some` only when the value
is an object that binds the key (on any other value the read yields
`undefined`). -/
def Json.getMember : Json → String → Option Json
  | .obj ms, k => lookupMember ms k
  | _, _ => none

/-- JavaScript truthiness of a parsed JSON value: `null`, `false`, `0` and
`""` are falsy; every array and object is truthy. -/
def Json.truthy : Json → Bool
  | .null => false
  | .bool b => b
  | .num n => decide (n ≠ 0)
  | .str s => decide (s ≠ "")
  | .arr _ => true
  | .obj _ => true

/-! ## JSON.stringify(x, null, 2) -/

/-- Lowercase hexadecimal digit. -/
def hexDigitChar (n : Nat) : Char :=
  if n < 10 then Char.ofNat (48 + n) else Char.ofNat (87 + n)

/-- Escape of one character inside a JSON string literal, as
`JSON.stringify` produces it. -/
def escapeChar (c : Char) : List Char :=
  if c = '"' then ['\\', '"']
  else if c = '\\' then ['\\', '\\']
  else if c = '\x08' then ['\\', 'b']
  else if c = '\t' then ['\\', 't']
  else if c = '\n' then ['\\', 'n']
  else if c = '\x0c' then ['\\', 'f']
  else if c = '\r' then ['\\', 'r']
  else if c.toNat < 32 then
    ['\\', 'u', '0', '0', hexDigitChar (c.toNat / 16), hexDigitChar (c.toNat % 16)]
  else [c]

/-- Escape of a whole string body. -/
def escapeStr (l : List Char) : List Char := (l.map escapeChar).flatten

/-- Character serialized as itself inside a JSON string literal. -/
def plainChar (c : Char) : Bool := !(c = '"' || c = '\\' || decide (c.toNat < 32))

/-- Decimal digits of a natural number, with structural fuel; any fuel at
least `n` is exact (the fallback branch is unreachable then). -/
def natCharsAux : Nat → Nat → List Char
  | 0, n => [Char.ofNat (48 + n % 10)]
  | Nat.succ fuel, n =>
    if n < 10 then [Char.ofNat (48 + n)]
    else natCharsAux fuel (n / 10) ++ [Char.ofNat (48 + n % 10)]

/-- Decimal digits of a natural number. -/
def natChars (n : Nat) : List Char := natCharsAux n n

/-- Decimal rendering of an integer. -/
def intChars (n : Int) : List Char :=
  if n < 0 then '-' :: natChars n.natAbs else natChars n.natAbs

/-- Indentation: `n` spaces. -/
def spaces (n : Nat) : List Char := List.replicate n ' '

mutual

/-- Serialization of a value at indentation depth `ind`, exactly as
`JSON.stringify(x, null, 2)` lays it out: nonempty arrays and objects
put every element on its own line indented two further spaces. -/
def sVal : Json → Nat → List Char
  | .null, _ => ['n', 'u', 'l', 'l']
  | .bool true, _ => ['t', 'r', 'u', 'e']
  | .bool false, _ => ['f', 'a', 'l', 's', 'e']
  | .num n, _ => intChars n
  | .str s, _ => '"' :: (escapeStr s.data ++ ['"'])
  | .arr [], _ => ['[', ']']
  | .arr (x :: xs), ind =>
    '[' :: '\n' :: (spaces (ind + 2) ++ (sVal x (ind + 2) ++ (sArrTail xs (ind + 2)
      ++ '\n' :: (spaces ind ++ [']']))))
  | .obj [], _ => ['{', '}']
  | .obj (m :: ms), ind =>
    '{' :: '\n' :: (spaces (ind + 2) ++ (sMember m (ind + 2) ++ (sObjTail ms (ind + 2)
      ++ '\n' :: (spaces ind ++ ['}']))))

/-- Serialization of one object member, `"key": value`. -/
def sMember : String × Json → Nat → List Char
  | (k, v), ind => '"' :: (escapeStr k.data ++ ('"' :: ':' :: ' ' :: sVal v ind))

/-- Serialization of the remaining array elements, each preceded by
`,\n` and indentation. -/
def sArrTail : List Json → Nat → List Char
  | [], _ => []
  | x :: xs, ind => ',' :: '\n' :: (spaces ind ++ (sVal x ind ++ sArrTail xs ind))

/-- Serialization of the remaining object members. -/
def sObjTail : List (String × Json) → Nat → List Char
  | [], _ => []
  | m :: ms, ind => ',' :: '\n' :: (spaces ind ++ (sMember m ind ++ sObjTail ms ind))

end

/-- Embedding of `JSON.stringify(x, null, 2)`. -/
def stringifyJson (j : Json) : String := String.mk (sVal j 0)

/-! ## JSON.parse -/

/-- JSON interelement whitespace. -/
def jsonWsChar (c : Char) : Bool := c = ' ' || c = '\t' || c = '\n' || c = '\r'

/-- Skip leading whitespace. -/
def skipWs (l : List Char) : List Char := l.dropWhile jsonWsChar

/-- Numeric value of a decimal digit character. -/
def digVal (c : Char) : Nat := c.toNat - 48

/-- Value of a digit string. -/
def digsToNat (l : List Char) : Nat := l.foldl (fun a c => a * 10 + digVal c) 0

/-- Parse a nonempty digit run. -/
def pNat (l : List Char) : Option (Nat × List Char) :=
  let ds := l.takeWhile isDigitCh
  if ds.isEmpty then none else some (digsToNat ds, l.dropWhile isDigitCh)

/-- Parse an integer literal (fractions and exponents are not modelled,
matching the integer-only `Json.num`). -/
def pNum : List Char → Option (Json × List Char)
  | '-' :: rest => (pNat rest).map fun p => (Json.num (-(p.1 : Int)), p.2)
  | l => (pNat l).map fun p => (Json.num ((p.1 : Int)), p.2)

/-- Value of a hexadecimal digit character. -/
def hexVal (c : Char) : Option Nat :=
  if '0' ≤ c && c ≤ '9' then some (c.toNat - 48)
  else if 'a' ≤ c && c ≤ 'f' then some (c.toNat - 87)
  else if 'A' ≤ c && c ≤ 'F' then some (c.toNat - 55)
  else none

/-- Decoded character of a single-character escape. -/
def escCharFor (e : Char) : Option Char :=
  if e = '"' then some '"'
  else if e = '\\' then some '\\'
  else if e = '/' then some '/'
  else if e = 'b' then some '\x08'
  else if e = 'f' then some '\x0c'
  else if e = 'n' then some '\n'
  else if e = 'r' then some '\r'
  else if e = 't' then some '\t'
  else none

mutual

/-- Parse the body of a string literal after the opening quote,
accumulating decoded characters in reverse. -/
def pStringAux : List Char → List Char → Option (String × List Char)
  | [], _ => none
  | c :: rest, acc =>
    if c = '"' then some (String.mk acc.reverse, rest)
    else if c = '\\' then pStringEsc rest acc
    else pStringAux rest (c :: acc)

/-- Parse the remainder after a backslash inside a string literal. -/
def pStringEsc : List Char → List Char → Option (String × List Char)
  | [], _ => none
  | e :: rest2, acc =>
    match escCharFor e with
    | some d => pStringAux rest2 (d :: acc)
    | none =>
      if e = 'u' then
        match rest2 with
        | h1 :: h2 :: h3 :: h4 :: rest3 =>
          match hexVal h1, hexVal h2, hexVal h3, hexVal h4 with
          | some a, some b, some c2, some d =>
            pStringAux rest3 (Char.ofNat (((a * 16 + b) * 16 + c2) * 16 + d) :: acc)
          | _, _, _, _ => none
        | _ => none
      else none

end

mutual

/-- Fueled parser for one JSON value; the fuel only bounds nesting of the
mutual recursion and any length-exceeding fuel is enough. -/
def pVal : Nat → List Char → Option (Json × List Char)
  | 0, _ => none
  | Nat.succ fuel, l =>
    match skipWs l with
    | 'n' :: 'u' :: 'l' :: 'l' :: rest => some (Json.null, rest)
    | 't' :: 'r' :: 'u' :: 'e' :: rest => some (Json.bool true, rest)
    | 'f' :: 'a' :: 'l' :: 's' :: 'e' :: rest => some (Json.bool false, rest)
    | '"' :: rest => (pStringAux rest []).map fun p => (Json.str p.1, p.2)
    | '[' :: rest =>
      (match skipWs rest with
       | ']' :: r2 => some (Json.arr [], r2)
       | _ => pArrElems fuel rest [])
    | '\x7b' :: rest =>
      (match skipWs rest with
       | '\x7d' :: r2 => some (Json.obj [], r2)
       | _ => pObjMembers fuel rest [])
    | rest => pNum rest

/-- Parse the elements of a nonempty array, accumulator in reverse. -/
def pArrElems : Nat → List Char → List Json → Option (Json × List Char)
  | 0, _, _ => none
  | Nat.succ fuel, l, acc =>
    match pVal fuel l with
    | none => none
    | some (v, rest) =>
      match skipWs rest with
      | ',' :: r2 => pArrElems fuel r2 (v :: acc)
      | ']' :: r2 => some (Json.arr (v :: acc).reverse, r2)
      | _ => none

/-- Parse the members of a nonempty object, accumulator in reverse. -/
def pObjMembers : Nat → List Char → List (String × Json) → Option (Json × List Char)
  | 0, _, _ => none
  | Nat.succ fuel, l, acc =>
    match skipWs l with
    | '"' :: rest =>
      (match pStringAux rest [] with
       | none => none
       | some (k, r2) =>
         match skipWs r2 with
         | ':' :: r3 =>
           (match pVal fuel r3 with
            | none => none
            | some (v, r4) =>
              match skipWs r4 with
              | ',' :: r5 => pObjMembers fuel r5 ((k, v) :: acc)
              | '\x7d' :: r5 => some (Json.obj ((k, v) :: acc).reverse, r5)
              | _ => none)
         | _ => none)
    | _ => none

end

/-- The array-entry step of `pVal` (the body of its opening-bracket arm),
named so that the round-trip proof can state it. -/
def pArrStart (fuel : Nat) (rest : List Char) : Option (Json × List Char) :=
  match skipWs rest with
  | ']' :: r2 => some (Json.arr [], r2)
  | _ => pArrElems fuel rest []

/-- The object-entry step of `pVal` (the body of its opening-brace arm). -/
def pObjStart (fuel : Nat) (rest : List Char) : Option (Json × List Char) :=
  match skipWs rest with
  | '\x7d' :: r2 => some (Json.obj [], r2)
  | _ => pObjMembers fuel rest []

/-- Embedding of `JSON.parse`: parse one value and require only
whitespace to remain. Exotic inputs (floats, duplicate keys, raw control
characters in strings) may differ from the JavaScript engine; all inputs
the script feeds back to `JSON.parse` are canonical `stringifyJson`
output, where the two agree. -/
def parseJson (s : String) : Option Json :=
  match pVal (s.data.length + 1) s.data with
  | some (j, rest) => if (skipWs rest).isEmpty then some j else none
  | none => none

/-! ## Global literal replacement

`String.prototype.replace` with a global regex denoting a literal
pattern: left-to-right, non-overlapping, scanning resumes after each
inserted replacement. -/

/-- Scanner for `replaceL`, structurally recursive on a fuel that stays
at least the length of the remaining text (so the fuel-exhausted branch
is unreachable from `replaceL`). -/
def replaceLAux (p r : List Char) : Nat → List Char → List Char
  | 0, t => t
  | Nat.succ fuel, t =>
    match t with
    | [] => []
    | c :: t' =>
      if p ≠ [] ∧ p.isPrefixOf (c :: t') then
        r ++ replaceLAux p r fuel ((c :: t').drop p.length)
      else c :: replaceLAux p r fuel t'

/-- Replace every occurrence of `p` by `r`, left to right. -/
def replaceL (p r t : List Char) : List Char := replaceLAux p r t.length t

/-! ## Rewriter outcomes -/

/-- Outcome of one artifact rewriter run: `written` is a successful run
(return value `true`) together with the content written back to the file;
the other two are the `return false` paths, which perform no write —
`skippedWarn` via `showWarning`, `failedError` via the `catch` handler
and `showError`. -/
inductive UpdateOutcome where
  | written (content : List Char) : UpdateOutcome
  | skippedWarn (msg : String) : UpdateOutcome
  | failedError (msg : String) : UpdateOutcome
deriving Repr

/-- The boolean the rewriter returns. -/
def UpdateOutcome.success : UpdateOutcome → Bool
  | .written _ => true
  | _ => false

/-- Content written to disk, if any. -/
def UpdateOutcome.contentWritten : UpdateOutcome → Option (List Char)
  | .written c => some c
  | _ => none

/-! ## updatePackageJson (source lines 175-201) -/

/-- The pure mutation of the parsed manifest (source lines 184-190):
set the `name` field unconditionally, then delete `scripts.rename`
provided `packageData.scripts` and `packageData.scripts.rename` are both
truthy. A non-object top level is returned unchanged (property
assignment on a primitive is a silent no-op in non-strict mode, and
`JSON.stringify` ignores non-index properties of an array). -/
def updatePackageJsonData (newName : String) (packageData : Json) : Json :=
  match packageData with
  | Json.obj ms =>
    let ms1 := setMember ms "name" (Json.str newName)
    match lookupMember ms1 "scripts" with
    | some scripts =>
      if scripts.truthy then
        match scripts.getMember "rename" with
        | some r =>
          if r.truthy then
            (match scripts with
             | Json.obj sms =>
               Json.obj (setMember ms1 "scripts" (Json.obj (delMember sms "rename")))
             | _ => Json.obj ms1)
          else Json.obj ms1
        | none => Json.obj ms1
      else Json.obj ms1
    | none => Json.obj ms1
  | other => other

/-- Embedding of `updatePackageJson` (source lines 175-201): read and
parse the manifest, apply the mutation, serialize with two-space
indentation plus trailing newline. A missing file or a parse failure is
caught and reported as failure. -/
def updatePackageJson (oldName newName : String) (file : Option String) : UpdateOutcome :=
  match file with
  | none => UpdateOutcome.failedError "Error updating package.json: no such file"
  | some content =>
    match parseJson content with
    | none => UpdateOutcome.failedError "Error updating package.json: unexpected token in JSON"
    | some packageData =>
      UpdateOutcome.written (sVal (updatePackageJsonData newName packageData) 0 ++ ['\n'])

/-! ## updateAngularJson (source lines 215-270) -/

/-- Warning message for a missing `projects` section. -/
def noProjectsWarning : String :=
  "angular.json does not contain a \"projects\" section. Skipping update."

/-- Warning message for a missing project node. -/
def projectNotFoundWarning (oldName : String) : String :=
  "Project \"" ++ oldName ++ "\" not found in angular.json. Skipping update."

/-- The search pattern of the build-target rewrite: the serialized text
`"oldName:` — an opening double quote, the identifier, a colon. -/
def refPattern (name : String) : List Char := '"' :: (name.data ++ [':'])

/-- Embedding of `updateAngularJson` (source lines 215-270). The source
builds `new RegExp('"' + oldName + ':', 'g')` without escaping; for
identifiers drawn from the name grammar the regex has no metacharacters
and denotes the literal string `refPattern oldName`, which is what the
replacement models. The serialized document is rewritten, parsed back as
a validity check, and re-serialized for writing. -/
def updateAngularJson (oldName newName : String) (file : Option String) : UpdateOutcome :=
  match file with
  | none =>
    UpdateOutcome.skippedWarn "angular.json not found. Skipping Angular configuration update."
  | some content =>
    match parseJson content with
    | none => UpdateOutcome.failedError "Error updating angular.json: unexpected token in JSON"
    | some angularData =>
      match angularData with
      | Json.obj ms =>
        match lookupMember ms "projects" with
        | none => UpdateOutcome.skippedWarn noProjectsWarning
        | some projects =>
          if !projects.truthy then UpdateOutcome.skippedWarn noProjectsWarning
          else
            match projects.getMember oldName with
            | none => UpdateOutcome.skippedWarn (projectNotFoundWarning oldName)
            | some oldProj =>
              if !oldProj.truthy then UpdateOutcome.skippedWarn (projectNotFoundWarning oldName)
              else
                match projects with
                | Json.obj pms =>
                  let pms1 := delMember (setMember pms newName oldProj) oldName
                  let renamed := Json.obj (setMember ms "projects" (Json.obj pms1))
                  let jsonString := sVal renamed 0
                  let replaced := replaceL (refPattern oldName) (refPattern newName) jsonString
                  match parseJson (String.mk replaced) with
                  | none =>
                    UpdateOutcome.failedError "Error updating angular.json: unexpected token in JSON"
                  | some updatedData =>
                    UpdateOutcome.written (sVal updatedData 0 ++ ['\n'])
                | _ => UpdateOutcome.skippedWarn (projectNotFoundWarning oldName)
      | _ => UpdateOutcome.skippedWarn noProjectsWarning

/-! ## updateReadme (source lines 285-345) and escapeRegExp (362-364) -/

/-- Characters escaped by `escapeRegExp`. -/
def isRegexSpecial (c : Char) : Bool :=
  c = '.' || c = '*' || c = '+' || c = '?' || c = '^' || c = '$' ||
  c = '\x7b' || c = '\x7d' || c = '(' || c = ')' || c = '|' ||
  c = '[' || c = ']' || c = '\\'

/-- Embedding of `escapeRegExp` (source lines 362-364): prefix every
regex metacharacter with a backslash. -/
def escapeRegExp (l : List Char) : List Char :=
  (l.map fun c => if isRegexSpecial c then ['\\', c] else [c]).flatten

/-- The heading the README rewriter excises. -/
def renameSectionHeader : List Char := "## Renaming the Project".data

/-- First marker substring for line removal. -/
def markerA : List Char := "rename-project".data

/-- Second marker substring for line removal. -/
def markerB : List Char := "npm run rename".data

/-- Index of the first occurrence of `pat` (JavaScript `indexOf`). -/
def findSub (pat : List Char) : List Char → Option Nat
  | [] => if pat.isPrefixOf [] then some 0 else none
  | c :: t => if pat.isPrefixOf (c :: t) then some 0 else (findSub pat t).map (· + 1)

/-- Containment test derived from `findSub`. -/
def containsSub (pat l : List Char) : Bool := (findSub pat l).isSome

/-- Match of the next-section regex `/\n##\s/` at the head of the list.
JavaScript's `\s` agrees with `isJsSpace` on ASCII. -/
def sectionBreakAt : List Char → Bool
  | '\n' :: '#' :: '#' :: c :: _ => isJsSpace c
  | _ => false

/-- Index of the first match of `/\n##\s/` (JavaScript `String.match`). -/
def findSectionBreak : List Char → Option Nat
  | [] => none
  | c :: t => if sectionBreakAt (c :: t) then some 0 else (findSectionBreak t).map (· + 1)

/-- Step 1 of `updateReadme` (source lines 303-320): excise the
`## Renaming the Project` section, from the first occurrence of the
heading up to and including the newline that starts the next `## `
heading, or to end of document when no later section exists. -/
def removeRenameSection (content : List Char) : List Char :=
  match findSub renameSectionHeader content with
  | none => content
  | some startIndex =>
    let afterStart := content.drop (startIndex + renameSectionHeader.length)
    match findSectionBreak afterStart with
    | some m =>
      let endIndex := startIndex + renameSectionHeader.length + m
      content.take startIndex ++ content.drop (endIndex + 1)
    | none => content.take startIndex

/-- JavaScript `content.split('\n')`. -/
def splitLines : List Char → List (List Char)
  | [] => [[]]
  | c :: t =>
    if c = '\n' then [] :: splitLines t
    else
      match splitLines t with
      | [] => [[c]]
      | l :: ls => (c :: l) :: ls

/-- JavaScript `lines.join('\n')`. -/
def joinLines : List (List Char) → List Char
  | [] => []
  | [l] => l
  | l :: l' :: ls => l ++ '\n' :: joinLines (l' :: ls)

/-- The filter predicate of step 2 (source lines 325-328): keep a line iff
its lowercase form contains neither marker substring. -/
def keepLine (line : List Char) : Bool :=
  let lowerLine := line.map Char.toLower
  !(containsSub markerA lowerLine) && !(containsSub markerB lowerLine)

/-- Step 2 of `updateReadme`: drop every marker line. -/
def removeMarkerLines (content : List Char) : List Char :=
  joinLines ((splitLines content).filter keepLine)

/-- Embedding of `updateReadme` (source lines 285-345). Step 3 builds
`new RegExp(escapeRegExp(oldName), 'g')`; the escaping makes the regex
denote the literal string `oldName`, so the step is the literal global
replacement `replaceL`. The result is written back without any added
newline. -/
def updateReadme (oldName newName : String) (file : Option String) : UpdateOutcome :=
  match file with
  | none => UpdateOutcome.skippedWarn "README.md not found. Skipping README update."
  | some content =>
    let c1 := removeRenameSection content.data
    let c2 := removeMarkerLines c1
    let c3 := replaceL oldName.data newName.data c2
    UpdateOutcome.written c3

/-! ## Statement-side definitions

Definitions used only to state the theorems: the atom-level effect of the
build-target substitution, cleanliness predicates delimiting the JSON
documents on which the serialize/replace/parse pipeline is analysed, and
the spec's notion of a well-formed manifest. -/

/-- Atom-level effect of the build-target substitution: a string starting
with `oldId:` has that identifier segment replaced by `newId`, everything
else is untouched. -/
def refMap (oldId newId : String) (s : String) : String :=
  if (oldId.data ++ [':']).isPrefixOf s.data
  then String.mk (newId.data ++ ':' :: s.data.drop (oldId.data.length + 1))
  else s

mutual

/-- Apply a string transformation to every atom (string value and object
key) of a document. -/
def mapAtoms (g : String → String) : Json → Json
  | .null => .null
  | .bool b => .bool b
  | .num n => .num n
  | .str s => .str (g s)
  | .arr xs => .arr (mapAtomsList g xs)
  | .obj ms => .obj (mapAtomsMembers g ms)

/-- `mapAtoms` on a list of elements. -/
def mapAtomsList (g : String → String) : List Json → List Json
  | [] => []
  | x :: xs => mapAtoms g x :: mapAtomsList g xs

/-- `mapAtoms` on a member list. -/
def mapAtomsMembers (g : String → String) : List (String × Json) → List (String × Json)
  | [] => []
  | (k, v) :: ms => (g k, mapAtoms g v) :: mapAtomsMembers g ms

end

mutual

/-- Every atom (string value and object key) of the document serializes
verbatim: no character needs escaping. -/
def plainAtoms : Json → Bool
  | .null => true
  | .bool _ => true
  | .num _ => true
  | .str s => s.data.all plainChar
  | .arr xs => plainAtomsList xs
  | .obj ms => plainAtomsMembers ms

/-- `plainAtoms` on a list of elements. -/
def plainAtomsList : List Json → Bool
  | [] => true
  | x :: xs => plainAtoms x && plainAtomsList xs

/-- `plainAtoms` on a member list. -/
def plainAtomsMembers : List (String × Json) → Bool
  | [] => true
  | (k, v) :: ms => k.data.all plainChar && plainAtoms v && plainAtomsMembers ms

end

mutual

/-- No object key anywhere in the document starts with the given prefix
(used with `oldId ++ ":"`: such keys would be renamed by the textual
substitution pass, which the build-graph claim does not cover). -/
def keysAvoid (q : List Char) : Json → Bool
  | .arr xs => keysAvoidList q xs
  | .obj ms => keysAvoidMembers q ms
  | _ => true

/-- `keysAvoid` on a list of elements. -/
def keysAvoidList (q : List Char) : List Json → Bool
  | [] => true
  | x :: xs => keysAvoid q x && keysAvoidList q xs

/-- `keysAvoid` on a member list. -/
def keysAvoidMembers (q : List Char) : List (String × Json) → Bool
  | [] => true
  | (k, v) :: ms => !(q.isPrefixOf k.data) && keysAvoid q v && keysAvoidMembers q ms

end

/-- String-valued JSON value. -/
def isStringVal : Json → Bool
  | .str _ => true
  | _ => false

/-- Modelled from the spec (section 6): a well-formed manifest is a JSON
object with a string `name` field and, optionally, a `scripts` object all
of whose values are strings (named commands). -/
def wellFormedManifest : Json → Bool
  | Json.obj ms =>
    (match lookupMember ms "name" with
     | some (Json.str _) => true
     | _ => false)
    &&
    (match lookupMember ms "scripts" with
     | none => true
     | some (Json.obj sms) => sms.all fun m => isStringVal m.2
     | some _ => false)
  | _ => false

/-- Number of occurrence start positions of `pat` (overlapping counted). -/
def countSub (pat : List Char) : List Char → Nat
  | [] => if pat.isPrefixOf [] then 1 else 0
  | c :: t => (if pat.isPrefixOf (c :: t) then 1 else 0) + countSub pat t

/-- Continuation whose head cannot start an identifier: used to delimit
where the build-target pattern can match. -/
def HeadNotLower (k : List Char) : Prop :=
  ∀ c, k.head? = some c → isLowerAlpha c = false

/-- Continuation whose head cannot extend a number literal. -/
def NumSafeTail (k : List Char) : Prop :=
  ∀ c, k.head? = some c → isDigitCh c = false

/-! # Theorems

Everything from here on is lemmas and the claim theorems. -/

/-! ## Character and pattern lemmas -/

theorem kebabChar_not_space {c : Char} (h : isKebabChar c = true) : isJsSpace c = false := by
  have hs : c ≠ ' ' := by intro e; subst e; exact absurd h (by decide)
  have ht : c ≠ '\t' := by intro e; subst e; exact absurd h (by decide)
  have hn : c ≠ '\n' := by intro e; subst e; exact absurd h (by decide)
  have hr : c ≠ '\r' := by intro e; subst e; exact absurd h (by decide)
  have hb : c ≠ '\x0b' := by intro e; subst e; exact absurd h (by decide)
  have hf : c ≠ '\x0c' := by intro e; subst e; exact absurd h (by decide)
  simp [isJsSpace, hs, ht, hn, hr, hb, hf]

theorem lowerAlnum_kebab {c : Char} (h : isLowerAlnum c = true) : isKebabChar c = true := by
  simp [isKebabChar, h]

mutual

theorem patRest_chars : ∀ l, patRest l = true → ∀ c ∈ l, isKebabChar c = true
  | [], _, c, hc => by simp at hc
  | a :: rest, h, c, hc => by
    simp only [patRest] at h
    by_cases ha : a = '-'
    · rw [if_pos ha] at h
      rcases List.mem_cons.mp hc with h' | hc'
      · subst h'; simp [isKebabChar, ha]
      · exact patGroup_chars rest h c hc'
    · rw [if_neg ha] at h
      have h2 : isLowerAlnum a = true ∧ patRest rest = true := by simpa using h
      rcases List.mem_cons.mp hc with h' | hc'
      · subst h'; exact lowerAlnum_kebab h2.1
      · exact patRest_chars rest h2.2 c hc'

theorem patGroup_chars : ∀ l, patGroup l = true → ∀ c ∈ l, isKebabChar c = true
  | a :: rest, h, c, hc => by
    simp only [patGroup] at h
    have h2 : isLowerAlnum a = true ∧ patRest rest = true := by simpa using h
    rcases List.mem_cons.mp hc with h' | hc'
    · subst h'; exact lowerAlnum_kebab h2.1
    · exact patRest_chars rest h2.2 c hc'

end

theorem patStart_chars {l : List Char} (h : patStart l = true) :
    ∀ c ∈ l, isKebabChar c = true := by
  cases l with
  | nil => exact absurd h (by decide)
  | cons a rest =>
    simp only [patStart] at h
    have h2 : isLowerAlpha a = true ∧ patRest rest = true := by simpa using h
    intro c hc
    rcases List.mem_cons.mp hc with h' | hc'
    · subst h'; exact lowerAlnum_kebab (by simp [isLowerAlnum, h2.1])
    · exact patRest_chars rest h2.2 c hc'

theorem patStart_ne_nil {l : List Char} (h : patStart l = true) : l ≠ [] := by
  intro he; subst he; exact absurd h (by decide)

theorem patStart_head_lower {c : Char} {rest : List Char}
    (h : patStart (c :: rest) = true) : isLowerAlpha c = true := by
  simp only [patStart] at h
  exact ((by simpa using h : isLowerAlpha c = true ∧ patRest rest = true)).1

/-! ## Grammar equivalence: the regex matcher against the declarative grammar -/

theorem joinHyphen_cons_cons (c : Char) (g : List Char) (gs : List (List Char)) :
    joinHyphen ((c :: g) :: gs) = c :: joinHyphen (g :: gs) := by
  cases gs <;> simp [joinHyphen]

theorem hyphen_not_alnum : isLowerAlnum '-' = false := by decide

mutual

theorem patRest_decomp : ∀ l, patRest l = true →
    ∃ g gs, l = joinHyphen (g :: gs) ∧ (∀ d ∈ g, isLowerAlnum d = true) ∧
      ∀ h ∈ gs, GoodGroup h
  | [], _ => ⟨[], [], by simp [joinHyphen]⟩
  | a :: rest, h => by
    simp only [patRest] at h
    by_cases ha : a = '-'
    · rw [if_pos ha] at h
      obtain ⟨g, gs, he, hg, hgs⟩ := patGroup_decomp rest h
      refine ⟨[], g :: gs, ?_, by simp, ?_⟩
      · subst ha
        cases gs <;> simp [joinHyphen, he]
      · intro k hk
        rcases List.mem_cons.mp hk with h' | hk'
        · subst h'; exact hg
        · exact hgs k hk'
    · rw [if_neg ha] at h
      have h2 : isLowerAlnum a = true ∧ patRest rest = true := by simpa using h
      obtain ⟨g, gs, he, hg, hgs⟩ := patRest_decomp rest h2.2
      refine ⟨a :: g, gs, ?_, ?_, hgs⟩
      · rw [joinHyphen_cons_cons, ← he]
      · intro d hd
        rcases List.mem_cons.mp hd with h' | hd'
        · subst h'; exact h2.1
        · exact hg d hd'

theorem patGroup_decomp : ∀ l, patGroup l = true →
    ∃ g gs, l = joinHyphen (g :: gs) ∧ GoodGroup g ∧ ∀ h ∈ gs, GoodGroup h
  | a :: rest, h => by
    simp only [patGroup] at h
    have h2 : isLowerAlnum a = true ∧ patRest rest = true := by simpa using h
    obtain ⟨g, gs, he, hg, hgs⟩ := patRest_decomp rest h2.2
    refine ⟨a :: g, gs, ?_, ⟨by simp, ?_⟩, hgs⟩
    · rw [joinHyphen_cons_cons, ← he]
    · intro d hd
      rcases List.mem_cons.mp hd with h' | hd'
      · subst h'; exact h2.1
      · exact hg d hd'

end

theorem patRest_join (gs : List (List Char)) : ∀ g : List Char,
    (∀ d ∈ g, isLowerAlnum d = true) → (∀ h ∈ gs, GoodGroup h) →
    patRest (joinHyphen (g :: gs)) = true := by
  induction gs with
  | nil =>
    intro g hg _
    induction g with
    | nil => simp [joinHyphen, patRest]
    | cons c g' ih =>
      rw [joinHyphen_cons_cons]
      have hc : isLowerAlnum c = true := hg c (by simp)
      have hc' : c ≠ '-' := by
        intro e; subst e; exact absurd hc (by decide)
      simp only [patRest, if_neg hc']
      rw [hc, ih (fun d hd => hg d (by simp [hd]))]
      rfl
  | cons k gs' ihgs =>
    intro g hg hgs
    induction g with
    | nil =>
      have hk : GoodGroup k := hgs k (by simp)
      obtain ⟨hk1, hk2⟩ := hk
      obtain ⟨d, ds, rfl⟩ := List.exists_cons_of_ne_nil hk1
      have : joinHyphen ([] :: (d :: ds) :: gs') = '-' :: joinHyphen ((d :: ds) :: gs') := by
        simp [joinHyphen]
      rw [this, joinHyphen_cons_cons]
      simp only [patRest, if_pos rfl, patGroup]
      have hd : isLowerAlnum d = true := hk2 d (by simp)
      rw [hd, ihgs ds (fun e he => hk2 e (by simp [he]))
        (fun h hh => hgs h (by simp [hh]))]
      rfl
    | cons c g' ih =>
      rw [joinHyphen_cons_cons]
      have hc : isLowerAlnum c = true := hg c (by simp)
      have hc' : c ≠ '-' := by
        intro e; subst e; exact absurd hc (by decide)
      simp only [patRest, if_neg hc']
      rw [hc, ih (fun d hd => hg d (by simp [hd]))]
      rfl

theorem matchesPattern_iff_isKebab (s : String) :
    matchesPattern s = true ↔ IsKebabName s := by
  constructor
  · intro h
    rw [matchesPattern] at h
    obtain ⟨a, rest, he⟩ : ∃ a rest, s.data = a :: rest := by
      cases hd : s.data with
      | nil => rw [hd] at h; exact absurd h (by decide)
      | cons a rest => exact ⟨a, rest, rfl⟩
    rw [he] at h
    simp only [patStart] at h
    have h2 : isLowerAlpha a = true ∧ patRest rest = true := by simpa using h
    obtain ⟨g, gs, hge, hg, hgs⟩ := patRest_decomp rest h2.2
    exact ⟨a :: g, gs, by rw [he, joinHyphen_cons_cons, ← hge],
      ⟨a, g, rfl, h2.1, hg⟩, hgs⟩
  · rintro ⟨g, gs, he, ⟨c, cs, rfl, hc, hcs⟩, hgs⟩
    rw [matchesPattern, he, joinHyphen_cons_cons]
    simp only [patStart]
    rw [hc, patRest_join gs cs hcs hgs]
    rfl

/-! ## Trim lemmas -/

theorem dropWhile_eq_self_of_none {p : Char → Bool} {l : List Char}
    (h : ∀ c ∈ l, p c = false) : l.dropWhile p = l := by
  cases l with
  | nil => rfl
  | cons c t => simp [List.dropWhile, h c (by simp)]

theorem trimL_eq_self {l : List Char} (h : ∀ c ∈ l, isJsSpace c = false) :
    trimL l = l := by
  unfold trimL
  rw [dropWhile_eq_self_of_none h,
      dropWhile_eq_self_of_none (fun c hc => h c (List.mem_reverse.mp hc)),
      List.reverse_reverse]

theorem jsTrim_of_matches {s : String} (h : matchesPattern s = true) :
    jsTrim s = s := by
  have hchars : ∀ c ∈ s.data, isJsSpace c = false := fun c hc =>
    kebabChar_not_space (patStart_chars h c hc)
  cases s with
  | mk l => simpa [jsTrim] using congrArg String.mk (trimL_eq_self hchars)

theorem jsTrim_ne_empty_of_matches {s : String} (h : matchesPattern s = true) :
    jsTrim s ≠ "" := by
  rw [jsTrim_of_matches h]
  intro he
  have : s.data = [] := by rw [he]
  exact patStart_ne_nil h this

/-! ## Claim C4 -/

theorem validate_valid_matches {s : String}
    (h : (validateProjectName s).valid = true) : matchesPattern s = true := by
  unfold validateProjectName at h
  by_cases he : jsTrim s = ""
  · rw [if_pos he] at h; simp at h
  · rw [if_neg he] at h
    by_cases hm : matchesPattern s
    · exact hm
    · rw [if_neg hm] at h; simp at h

/-- C4: `validateProjectName` accepts exactly the strings matching the
grammar `^[a-z][a-z0-9]*(-[a-z0-9]+)*$` (stated against the declarative
group reading `IsKebabName` of that grammar); every string that is empty
after trimming surrounding whitespace is rejected with the EMPTY reason
(`Project name cannot be empty`), and every string that is nonempty after
trimming but fails the grammar is rejected with the BAD_FORMAT reason
whose message carries the rejected value. The embedding is a pure
function, hence deterministic. -/
theorem C4_validateProjectName_correct (name : String) :
    ((validateProjectName name).valid = true ↔ IsKebabName name) ∧
    (jsTrim name = "" →
      validateProjectName name = ⟨false, some emptyNameError⟩) ∧
    (jsTrim name ≠ "" → ¬ IsKebabName name →
      validateProjectName name = ⟨false, some (invalidNameError name)⟩) := by
  refine ⟨⟨fun h => (matchesPattern_iff_isKebab name).mp (validate_valid_matches h),
    fun h => ?_⟩, fun he => ?_, fun he hk => ?_⟩
  · have hm := (matchesPattern_iff_isKebab name).mpr h
    unfold validateProjectName
    rw [if_neg (jsTrim_ne_empty_of_matches hm), if_pos hm]
  · unfold validateProjectName
    rw [if_pos he]
  · have hm : ¬ (matchesPattern name = true) := fun hmm =>
      hk ((matchesPattern_iff_isKebab name).mp hmm)
    unfold validateProjectName
    rw [if_neg he, if_neg hm]

/-- Witness for C4 at concrete inputs. -/
theorem C4_witness :
    IsKebabName "my-project" ∧
    validateProjectName "   " = ⟨false, some emptyNameError⟩ ∧
    validateProjectName "My_Project" = ⟨false, some (invalidNameError "My_Project")⟩ :=
  ⟨(C4_validateProjectName_correct "my-project").1.mp (by decide),
   (C4_validateProjectName_correct "   ").2.1 (by decide),
   (C4_validateProjectName_correct "My_Project").2.2 (by decide)
     (fun hk => absurd ((matchesPattern_iff_isKebab "My_Project").mpr hk) (by decide))⟩

/-! ## Claim C10 -/

/-- C10: `prompt` resolves with the answer trimmed of surrounding
whitespace before validation; whenever the trimmed answer passes
validation, `promptForNewName` accepts on that very attempt and returns
the trimmed string, which carries no surrounding whitespace (trimming it
again is the identity). -/
theorem C10_prompt_trims (answer : String) (rest : List String)
    (h : (validateProjectName (jsTrim answer)).valid = true) :
    prompt answer = jsTrim answer ∧
    promptForNewName (answer :: rest) = some (jsTrim answer) ∧
    jsTrim (jsTrim answer) = jsTrim answer := by
  refine ⟨rfl, ?_, ?_⟩
  · simp only [promptForNewName, prompt]
    rw [h]
    simp
  · exact jsTrim_of_matches (validate_valid_matches h)

/-- Witness for C10 at a concrete input with surrounding whitespace. -/
theorem C10_witness :
    promptForNewName [" my-app  "] = some (jsTrim " my-app  ") ∧
    jsTrim (jsTrim " my-app  ") = jsTrim " my-app  " :=
  ⟨(C10_prompt_trims " my-app  " [] (by decide)).2.1,
   (C10_prompt_trims " my-app  " [] (by decide)).2.2⟩

/-! ## Claim C1 -/

/-- C1 (counterexample): in a run whose manifest rewrite fails, the driver
exits with code 2 but still invokes both the build-graph rewriter and the
document rewriter after the failure, refuting "updateAngularJson and
updateReadme are never invoked after that failure". -/
theorem C1_counterexample :
    (mainRun ⟨false, true, some "old-project", "new-project",
      false, true, true, true⟩).1 = 2 ∧
    MainStep.updAngular ∈ (mainRun ⟨false, true, some "old-project",
      "new-project", false, true, true, true⟩).2 ∧
    MainStep.updReadme ∈ (mainRun ⟨false, true, some "old-project",
      "new-project", false, true, true, true⟩).2 := by
  decide

/-- C1 (amended): if the mandatory manifest rewrite fails (and setup
succeeded), the driver still invokes the build-graph and the document
rewriter, then exits with code 2; the history reset is never attempted. -/
theorem C1_amended (env : MainEnv) (h1 : env.pkgExists = true)
    (nm : String) (h2 : env.currentName = some nm) (h3 : env.pkgOk = false) :
    mainRun env = (2, [MainStep.verifyFiles, MainStep.readCurrentName,
      MainStep.promptName, MainStep.updPackage, MainStep.updAngular,
      MainStep.updReadme]) := by
  simp [mainRun, h1, h2, h3]

/-- Witness for C1's amended theorem at a concrete environment. -/
theorem C1_witness :
    mainRun ⟨true, true, some "a", "b", false, true, true, true⟩ =
      (2, [MainStep.verifyFiles, MainStep.readCurrentName,
       MainStep.promptName, MainStep.updPackage, MainStep.updAngular,
       MainStep.updReadme]) :=
  C1_amended _ rfl "a" rfl rfl

/-! ## Claim C3 -/

/-- C3: when the history reset was requested and fails while the manifest
rewrite succeeded and no earlier fatal condition occurred, the exit code
is 3; the steps performed are exactly those of the corresponding
successful-reset run (which exits 0), so the artifact rewrites already
performed are unaffected by the history-reset failure. -/
theorem C3_git_failure_exit3 (env : MainEnv) (h1 : env.pkgExists = true)
    (nm : String) (h2 : env.currentName = some nm) (h3 : env.pkgOk = true)
    (h4 : env.gitReset = true) (h5 : env.gitOk = false) :
    mainRun env = (3, [MainStep.verifyFiles, MainStep.readCurrentName,
      MainStep.promptName, MainStep.updPackage, MainStep.updAngular,
      MainStep.updReadme, MainStep.gitReinit]) ∧
    (mainRun ⟨env.gitReset, env.pkgExists, env.currentName, env.newName,
      env.pkgOk, env.angularOk, env.readmeOk, true⟩).2 = (mainRun env).2 := by
  constructor <;> simp [mainRun, h1, h2, h3, h4, h5]

/-- Witness for C3 at a concrete environment. -/
theorem C3_witness :
    mainRun ⟨true, true, some "a", "b", true, true, true, false⟩ =
      (3, [MainStep.verifyFiles, MainStep.readCurrentName,
       MainStep.promptName, MainStep.updPackage, MainStep.updAngular,
       MainStep.updReadme, MainStep.gitReinit]) :=
  (C3_git_failure_exit3 _ rfl "a" rfl rfl rfl rfl).1

/-! ## Claim C8 -/

/-- C8: `reinitializeGit` enters its stages strictly in the source order
availability-check, remove-old-history, init, stage-all, commit (the
stages entered always form a duplicate-free prefix of that sequence, so
no stage is retried or reordered); a failed availability check returns
false without entering any further stage, and each later failing step
emits exactly one warning carrying the underlying error text and returns
false immediately with no remaining stage entered. -/
theorem C8_reinitializeGit_order (env : GitEnv) (name : String) :
    ((reinitializeGit env name).steps <+:
      [GitStep.checkAvail, GitStep.removeOldDir, GitStep.gitInit,
       GitStep.gitAdd, GitStep.gitCommit]) ∧
    (reinitializeGit env name).steps.Nodup ∧
    (env.gitAvailable = false →
      reinitializeGit env name = ⟨false, [GitStep.checkAvail],
        [ "Git is not available on this system. Skipping repository reinitialization.",
          "You can manually initialize Git later with: git init"]⟩) ∧
    (∀ e, env.gitAvailable = true → env.gitDirExists = true →
      env.rmResult = Except.error e →
      reinitializeGit env name = ⟨false,
        [GitStep.checkAvail, GitStep.removeOldDir],
        [ "Could not remove .git directory: " ++ e]⟩) ∧
    (∀ e, env.gitAvailable = true →
      (env.gitDirExists = false ∨ env.rmResult = Except.ok ()) →
      env.initResult = Except.error e →
      reinitializeGit env name = ⟨false,
        [GitStep.checkAvail, GitStep.removeOldDir, GitStep.gitInit],
        [ "Could not initialize Git repository: " ++ e]⟩) ∧
    (∀ e, env.gitAvailable = true →
      (env.gitDirExists = false ∨ env.rmResult = Except.ok ()) →
      env.initResult = Except.ok () → env.addResult = Except.error e →
      reinitializeGit env name = ⟨false,
        [GitStep.checkAvail, GitStep.removeOldDir, GitStep.gitInit,
         GitStep.gitAdd],
        [ "Could not stage files: " ++ e]⟩) ∧
    (∀ e, env.gitAvailable = true →
      (env.gitDirExists = false ∨ env.rmResult = Except.ok ()) →
      env.initResult = Except.ok () → env.addResult = Except.ok () →
      env.commitResult = Except.error e →
      reinitializeGit env name = ⟨false,
        [GitStep.checkAvail, GitStep.removeOldDir, GitStep.gitInit,
         GitStep.gitAdd, GitStep.gitCommit],
        [ "Could not create initial commit: " ++ e]⟩) := by
  obtain ⟨avail, dirE, rm, ini, add, com⟩ := env
  have hpre : (reinitializeGit ⟨avail, dirE, rm, ini, add, com⟩ name).steps <+:
      [GitStep.checkAvail, GitStep.removeOldDir, GitStep.gitInit,
       GitStep.gitAdd, GitStep.gitCommit] := by
    cases avail
    · exact ⟨_, rfl⟩
    · cases dirE <;> rcases rm with e1 | ⟨⟩ <;> rcases ini with e2 | ⟨⟩ <;>
        rcases add with e3 | ⟨⟩ <;> rcases com with e4 | ⟨⟩ <;> exact ⟨_, rfl⟩
  refine ⟨hpre, List.Nodup.sublist hpre.sublist (by decide), ?_, ?_, ?_, ?_, ?_⟩
  · intro hav
    have h : avail = false := hav
    subst h
    rfl
  · intro e hav hdir hrm
    have h1 : avail = true := hav
    have h2 : dirE = true := hdir
    have h3 : rm = Except.error e := hrm
    subst h1; subst h2; subst h3
    rfl
  · intro e hav hrm hini
    have h1 : avail = true := hav
    have h3 : ini = Except.error e := hini
    subst h1; subst h3
    have hok : (if dirE then rm else Except.ok ()) = Except.ok () := by
      rcases hrm with h | h
      · have h2 : dirE = false := h
        simp [h2]
      · have h2 : rm = Except.ok () := h
        cases dirE <;> simp [h2]
    simp [reinitializeGit, checkGitAvailability, hok]
  · intro e hav hrm hini hadd
    have h1 : avail = true := hav
    have h3 : ini = Except.ok () := hini
    have h4 : add = Except.error e := hadd
    subst h1; subst h3; subst h4
    have hok : (if dirE then rm else Except.ok ()) = Except.ok () := by
      rcases hrm with h | h
      · have h2 : dirE = false := h
        simp [h2]
      · have h2 : rm = Except.ok () := h
        cases dirE <;> simp [h2]
    simp [reinitializeGit, checkGitAvailability, hok]
  · intro e hav hrm hini hadd hcom
    have h1 : avail = true := hav
    have h3 : ini = Except.ok () := hini
    have h4 : add = Except.ok () := hadd
    have h5 : com = Except.error e := hcom
    subst h1; subst h3; subst h4; subst h5
    have hok : (if dirE then rm else Except.ok ()) = Except.ok () := by
      rcases hrm with h | h
      · have h2 : dirE = false := h
        simp [h2]
      · have h2 : rm = Except.ok () := h
        cases dirE <;> simp [h2]
    simp [reinitializeGit, checkGitAvailability, hok]

/-- Witness for C8 at a concrete environment whose commit step fails. -/
theorem C8_witness :
    reinitializeGit ⟨true, true, Except.ok (), Except.ok (), Except.ok (),
      Except.error "nothing to commit"⟩ "new-app" =
    ⟨false, [GitStep.checkAvail, GitStep.removeOldDir, GitStep.gitInit,
      GitStep.gitAdd, GitStep.gitCommit],
     [ "Could not create initial commit: " ++ "nothing to commit"]⟩ :=
  ((((((C8_reinitializeGit_order ⟨true, true, Except.ok (), Except.ok (),
    Except.ok (), Except.error "nothing to commit"⟩ "new-app").2).2).2).2).2).2
    "nothing to commit" rfl (Or.inr rfl) rfl rfl rfl

/-! ## Claim C7 -/

/-- C7: each degenerate build-graph situation — missing file, parsed
document without a projects section, or a projects map without an entry
keyed exactly `oldName` — produces a non-success warning outcome carrying
the corresponding message; warning outcomes return false and write
nothing, and the driver's exit code and step sequence do not depend on
the build-graph outcome, the document rewrite always following. -/
theorem C7_angular_skip_paths (oldName newName : String) :
    (updateAngularJson oldName newName none =
      UpdateOutcome.skippedWarn
        "angular.json not found. Skipping Angular configuration update.") ∧
    (∀ content ms, parseJson content = some (Json.obj ms) →
      lookupMember ms "projects" = none →
      updateAngularJson oldName newName (some content) =
        UpdateOutcome.skippedWarn noProjectsWarning) ∧
    (∀ content ms pms, parseJson content = some (Json.obj ms) →
      lookupMember ms "projects" = some (Json.obj pms) →
      lookupMember pms oldName = none →
      updateAngularJson oldName newName (some content) =
        UpdateOutcome.skippedWarn (projectNotFoundWarning oldName)) ∧
    (∀ msg, (UpdateOutcome.skippedWarn msg).success = false ∧
      (UpdateOutcome.skippedWarn msg).contentWritten = none) ∧
    (∀ g pk cn nn pok rok gok a1 a2,
      mainRun ⟨g, pk, cn, nn, pok, a1, rok, gok⟩ =
        mainRun ⟨g, pk, cn, nn, pok, a2, rok, gok⟩) ∧
    (∀ env : MainEnv, ∀ nm, env.pkgExists = true → env.currentName = some nm →
      MainStep.updReadme ∈ (mainRun env).2) := by
  refine ⟨rfl, ?_, ?_, fun msg => ⟨rfl, rfl⟩, ?_, ?_⟩
  · intro content ms hp hl
    simp [updateAngularJson, hp, hl]
  · intro content ms pms hp hl hm
    simp [updateAngularJson, hp, hl, Json.truthy, Json.getMember, hm]
  · intro g pk cn nn pok rok gok a1 a2
    cases pk <;> cases cn <;> cases pok <;> cases g <;> cases gok <;> rfl
  · intro env nm h1 h2
    obtain ⟨g, pk, cn, nn, pok, aok, rok, gok⟩ := env
    have h1' : pk = true := h1
    have h2' : cn = some nm := h2
    subst h1'; subst h2'
    cases pok <;> cases g <;> cases gok <;> simp [mainRun]

set_option maxRecDepth 10000 in
/-- Witness for C7 at concrete build graphs. -/
theorem C7_witness :
    updateAngularJson "old" "new" (some (stringifyJson (Json.obj []))) =
      UpdateOutcome.skippedWarn noProjectsWarning ∧
    updateAngularJson "old" "new"
      (some (stringifyJson (Json.obj [("projects",
        Json.obj [("other", Json.obj [("x", Json.num 1)])])]))) =
      UpdateOutcome.skippedWarn (projectNotFoundWarning "old") :=
  ⟨(C7_angular_skip_paths "old" "new").2.1 _ [] rfl rfl,
   (C7_angular_skip_paths "old" "new").2.2.1 _ _ _ rfl rfl rfl⟩

/-! ## replaceL toolkit -/

theorem replaceLAux_nil (p r : List Char) : ∀ f, replaceLAux p r f [] = []
  | 0 => rfl
  | Nat.succ _ => rfl

theorem replaceLAux_irrel (p r : List Char) : ∀ (n : Nat) (t : List Char),
    t.length ≤ n → ∀ f1 f2, t.length ≤ f1 → t.length ≤ f2 →
    replaceLAux p r f1 t = replaceLAux p r f2 t := by
  intro n
  induction n with
  | zero =>
    intro t ht f1 f2 _ _
    have he : t = [] := List.eq_nil_of_length_eq_zero (Nat.le_zero.mp ht)
    subst he
    rw [replaceLAux_nil, replaceLAux_nil]
  | succ n ih =>
    intro t ht f1 f2 h1 h2
    cases t with
    | nil => rw [replaceLAux_nil, replaceLAux_nil]
    | cons c t' =>
      obtain ⟨f1', rfl⟩ : ∃ k, f1 = k + 1 := ⟨f1 - 1, by simp at h1; omega⟩
      obtain ⟨f2', rfl⟩ : ∃ k, f2 = k + 1 := ⟨f2 - 1, by simp at h2; omega⟩
      simp only [replaceLAux]
      by_cases h : p ≠ [] ∧ p.isPrefixOf (c :: t') = true
      · rw [if_pos h, if_pos h]
        have hp : 1 ≤ p.length := List.length_pos.mpr h.1
        have hd : ((c :: t').drop p.length).length ≤ t'.length := by
          simp [List.length_drop]; omega
        have hn : t'.length ≤ n := by simp at ht; omega
        exact congrArg (r ++ ·) (ih _ (le_trans hd hn) f1' f2'
          (le_trans hd (by simp at h1; omega)) (le_trans hd (by simp at h2; omega)))
      · rw [if_neg h, if_neg h]
        have hn : t'.length ≤ n := by simp at ht; omega
        exact congrArg (c :: ·) (ih t' hn f1' f2'
          (by simp at h1; omega) (by simp at h2; omega))

theorem replaceL_nil (p r : List Char) : replaceL p r [] = [] := rfl

theorem replaceL_cons_match {p : List Char} (r : List Char) {c : Char}
    {t : List Char} (h1 : p ≠ []) (h2 : p.isPrefixOf (c :: t) = true) :
    replaceL p r (c :: t) = r ++ replaceL p r ((c :: t).drop p.length) := by
  have hp : 1 ≤ p.length := List.length_pos.mpr h1
  show replaceLAux p r (t.length + 1) (c :: t) = _
  simp only [replaceLAux]
  rw [if_pos ⟨h1, h2⟩]
  congr 1
  exact replaceLAux_irrel p r (((c :: t).drop p.length).length) _ le_rfl
    t.length (((c :: t).drop p.length).length)
    (by simp [List.length_drop]; omega) le_rfl

theorem replaceL_cons_nomatch {p : List Char} (r : List Char) {c : Char}
    {t : List Char} (h : ¬(p ≠ [] ∧ p.isPrefixOf (c :: t) = true)) :
    replaceL p r (c :: t) = c :: replaceL p r t := by
  show replaceLAux p r (t.length + 1) (c :: t) = _
  simp only [replaceLAux]
  rw [if_neg h]
  rfl

theorem replaceL_quotefree (q r : List Char) : ∀ (u v : List Char), '"' ∉ u →
    replaceL ('"' :: q) r (u ++ v) = u ++ replaceL ('"' :: q) r v
  | [], _, _ => rfl
  | c :: u', v, hu => by
    have hc : c ≠ '"' := fun e => hu (by simp [e])
    have hnm : ¬(('"' :: q) ≠ [] ∧
        ('"' :: q).isPrefixOf (c :: (u' ++ v)) = true) := by
      rintro ⟨-, hpre⟩
      rw [List.isPrefixOf_iff_prefix] at hpre
      exact hc (List.cons_prefix_cons.mp hpre).1.symm
    rw [List.cons_append, replaceL_cons_nomatch _ hnm,
        replaceL_quotefree q r u' v (fun hm => hu (List.mem_cons_of_mem _ hm))]
    rfl

theorem replaceL_self_aux (p : List Char) : ∀ (n : Nat) (t : List Char),
    t.length ≤ n → replaceL p p t = t := by
  intro n
  induction n with
  | zero =>
    intro t ht
    have he : t = [] := List.eq_nil_of_length_eq_zero (Nat.le_zero.mp ht)
    subst he; rfl
  | succ n ih =>
    intro t ht
    cases t with
    | nil => rfl
    | cons c t' =>
      by_cases h : p ≠ [] ∧ p.isPrefixOf (c :: t') = true
      · rw [replaceL_cons_match _ h.1 h.2]
        have hpre : p <+: (c :: t') := List.isPrefixOf_iff_prefix.mp h.2
        obtain ⟨s, hs⟩ := hpre
        have hdrop : (c :: t').drop p.length = s := by rw [← hs]; simp
        have hp : 1 ≤ p.length := List.length_pos.mpr h.1
        have hls : s.length ≤ n := by
          have := congrArg List.length hs
          simp at this ht
          omega
        rw [hdrop, ih s hls, hs]
      · rw [replaceL_cons_nomatch _ h,
            ih t' (by simp at ht; omega)]

theorem replaceL_self (p t : List Char) : replaceL p p t = t :=
  replaceL_self_aux p t.length t le_rfl

/-! ## Substring search lemmas -/

theorem findSub_some_prefix (pat : List Char) : ∀ (l : List Char) (i : Nat),
    findSub pat l = some i → pat <+: l.drop i
  | [], i, h => by
    simp only [findSub] at h
    by_cases hp : pat.isPrefixOf ([] : List Char) = true
    · rw [if_pos hp] at h
      cases h
      exact List.isPrefixOf_iff_prefix.mp hp
    · rw [if_neg hp] at h; cases h
  | c :: t, i, h => by
    simp only [findSub] at h
    by_cases hp : pat.isPrefixOf (c :: t) = true
    · rw [if_pos hp] at h
      cases h
      exact List.isPrefixOf_iff_prefix.mp hp
    · rw [if_neg hp] at h
      obtain ⟨j, hj, rfl⟩ : ∃ j, findSub pat t = some j ∧ i = j + 1 := by
        cases hf : findSub pat t with
        | none => rw [hf] at h; cases h
        | some j => rw [hf] at h; cases h; exact ⟨j, rfl, rfl⟩
      exact findSub_some_prefix pat t j hj

theorem findSub_none_not_prefixed (pat : List Char) : ∀ (l : List Char),
    findSub pat l = none → ∀ i, ¬ (pat <+: l.drop i)
  | [], h, i => by
    simp only [findSub] at h
    by_cases hp : pat.isPrefixOf ([] : List Char) = true
    · rw [if_pos hp] at h; cases h
    · rw [if_neg hp] at h
      intro hc
      rw [List.drop_nil] at hc
      exact hp (List.isPrefixOf_iff_prefix.mpr hc)
  | c :: t, h, i => by
    simp only [findSub] at h
    by_cases hp : pat.isPrefixOf (c :: t) = true
    · rw [if_pos hp] at h; cases h
    · rw [if_neg hp] at h
      have hft : findSub pat t = none := by
        cases hf : findSub pat t with
        | none => rfl
        | some j => rw [hf] at h; cases h
      cases i with
      | zero =>
        intro hc
        exact hp (List.isPrefixOf_iff_prefix.mpr hc)
      | succ i' => exact findSub_none_not_prefixed pat t hft i'

theorem findSub_some_first (pat : List Char) : ∀ (l : List Char) (i : Nat),
    findSub pat l = some i → ∀ j < i, ¬ (pat <+: l.drop j)
  | [], i, h, j, hj => by
    simp only [findSub] at h
    by_cases hp : pat.isPrefixOf ([] : List Char) = true
    · rw [if_pos hp] at h; cases h; omega
    · rw [if_neg hp] at h; cases h
  | c :: t, i, h, j, hj => by
    simp only [findSub] at h
    by_cases hp : pat.isPrefixOf (c :: t) = true
    · rw [if_pos hp] at h; cases h; omega
    · rw [if_neg hp] at h
      obtain ⟨j', hj', rfl⟩ : ∃ j', findSub pat t = some j' ∧ i = j' + 1 := by
        cases hf : findSub pat t with
        | none => rw [hf] at h; cases h
        | some j' => rw [hf] at h; cases h; exact ⟨j', rfl, rfl⟩
      cases j with
      | zero =>
        intro hc
        exact hp (List.isPrefixOf_iff_prefix.mpr hc)
      | succ j'' =>
        exact findSub_some_first pat t j' hj' j'' (by omega)

theorem infix_iff_exists_drop {pat l : List Char} :
    pat <:+: l ↔ ∃ i, pat <+: l.drop i := by
  constructor
  · rintro ⟨a, b, rfl⟩
    refine ⟨a.length, ?_⟩
    rw [List.append_assoc, List.drop_left]
    exact ⟨b, rfl⟩
  · rintro ⟨i, t, ht⟩
    exact ⟨l.take i, t, by rw [List.append_assoc, ht, List.take_append_drop]⟩

theorem containsSub_iff_infix {pat l : List Char} :
    containsSub pat l = true ↔ pat <:+: l := by
  unfold containsSub
  constructor
  · intro h
    cases hf : findSub pat l with
    | none => rw [hf] at h; cases h
    | some i =>
      exact infix_iff_exists_drop.mpr ⟨i, findSub_some_prefix pat l i hf⟩
  · intro h
    cases hf : findSub pat l with
    | none =>
      obtain ⟨i, hi⟩ := infix_iff_exists_drop.mp h
      exact absurd hi (findSub_none_not_prefixed pat l hf i)
    | some i => rfl

/-! ## Association-list lemmas -/

theorem lookup_setMember_self (ms : List (String × Json)) (k : String) (v : Json) :
    lookupMember (setMember ms k v) k = some v := by
  induction ms with
  | nil => simp [setMember, lookupMember]
  | cons m rest ih =>
    obtain ⟨k0, v0⟩ := m
    by_cases h : k0 = k
    · simp [setMember, h, lookupMember]
    · simp [setMember, h, lookupMember, ih]

theorem lookup_setMember_ne (ms : List (String × Json)) (k k' : String) (v : Json)
    (h : k' ≠ k) : lookupMember (setMember ms k v) k' = lookupMember ms k' := by
  induction ms with
  | nil => simp [setMember, lookupMember, Ne.symm h]
  | cons m rest ih =>
    obtain ⟨k0, v0⟩ := m
    by_cases h0 : k0 = k
    · subst h0
      simp [setMember, lookupMember, Ne.symm h]
    · by_cases h1 : k0 = k'
      · simp [setMember, h0, lookupMember, h1, h]
      · simp [setMember, h0, lookupMember, h1, ih]

theorem lookup_delMember_self (ms : List (String × Json)) (k : String) :
    lookupMember (delMember ms k) k = none := by
  induction ms with
  | nil => simp [delMember, lookupMember]
  | cons m rest ih =>
    obtain ⟨k0, v0⟩ := m
    by_cases h : k0 = k
    · simp [delMember, h, ih]
    · simp [delMember, h, lookupMember, ih]

theorem lookup_delMember_ne (ms : List (String × Json)) (k k' : String)
    (h : k' ≠ k) : lookupMember (delMember ms k) k' = lookupMember ms k' := by
  induction ms with
  | nil => simp [delMember, lookupMember]
  | cons m rest ih =>
    obtain ⟨k0, v0⟩ := m
    by_cases h0 : k0 = k
    · subst h0
      simp [delMember, lookupMember, Ne.symm h, ih]
    · by_cases h1 : k0 = k'
      · simp [delMember, h0, lookupMember, h1, h]
      · simp [delMember, h0, lookupMember, h1, ih]

/-! ## Claim C5 -/

set_option maxRecDepth 10000 in
/-- C5 (counterexample): a manifest whose `scripts.rename` command is the
empty string — a JSON object with a string name and a map of string
commands, hence well-formed per spec section 6 — is rewritten
successfully, yet the rename entry is still present in the written
scripts map: the source deletes the entry only when its value is truthy,
and the empty string is falsy. -/
theorem C5_counterexample :
    wellFormedManifest (Json.obj [("name", Json.str "old-project"),
      ("scripts", Json.obj [("start", Json.str "x"),
        ("rename", Json.str "")])]) = true ∧
    (updatePackageJson "old-project" "new-project"
      (some (stringifyJson (Json.obj [("name", Json.str "old-project"),
        ("scripts", Json.obj [("start", Json.str "x"),
          ("rename", Json.str "")])])))).success = true ∧
    (updatePackageJson "old-project" "new-project"
      (some (stringifyJson (Json.obj [("name", Json.str "old-project"),
        ("scripts", Json.obj [("start", Json.str "x"),
          ("rename", Json.str "")])])))).contentWritten =
      some (sVal (Json.obj [("name", Json.str "new-project"),
        ("scripts", Json.obj [("start", Json.str "x"),
          ("rename", Json.str "")])]) 0 ++ ['\n']) :=
  ⟨rfl, rfl, rfl⟩

/-- C5 (amended): for every well-formed manifest whose rename entry, when
present, is truthy (e.g. a nonempty command string), the manifest rewrite
sets the name field to the new identifier — unconditionally, no
hypothesis relating the stored name to the old identifier is needed —
removes the `rename` entry of the scripts sub-map, and leaves every other
top-level field and every other scripts entry unchanged. The truthiness
proviso is forced by the counterexample. -/
theorem C5_amended (newName : String) (ms : List (String × Json))
    (hwf : wellFormedManifest (Json.obj ms) = true)
    (htruthy : ∀ sms r, lookupMember ms "scripts" = some (Json.obj sms) →
      lookupMember sms "rename" = some r → r.truthy = true) :
    ∃ result, updatePackageJsonData newName (Json.obj ms) = Json.obj result ∧
      lookupMember result "name" = some (Json.str newName) ∧
      (∀ sms', lookupMember result "scripts" = some (Json.obj sms') →
        lookupMember sms' "rename" = none) ∧
      (∀ k, k ≠ "name" → k ≠ "scripts" →
        lookupMember result k = lookupMember ms k) ∧
      (∀ sms sms', lookupMember ms "scripts" = some (Json.obj sms) →
        lookupMember result "scripts" = some (Json.obj sms') →
        ∀ k, k ≠ "rename" → lookupMember sms' k = lookupMember sms k) := by
  have hscr : lookupMember (setMember ms "name" (Json.str newName)) "scripts" =
      lookupMember ms "scripts" :=
    lookup_setMember_ne ms "name" "scripts" (Json.str newName) (by decide)
  have hname := lookup_setMember_self ms "name" (Json.str newName)
  simp only [updatePackageJsonData]
  split
  case _ scripts hsc =>
    rw [hscr] at hsc
    have hobj : ∃ sms, scripts = Json.obj sms := by
      simp only [wellFormedManifest] at hwf
      rw [hsc] at hwf
      rcases scripts with _ | b | n | s2 | xs | sms
      · simp at hwf
      · simp at hwf
      · simp at hwf
      · simp at hwf
      · simp at hwf
      · exact ⟨sms, rfl⟩
    obtain ⟨sms, rfl⟩ := hobj
    rw [if_pos (show (Json.obj sms).truthy = true from rfl)]
    rw [show (Json.obj sms).getMember "rename" = lookupMember sms "rename" from rfl]
    split
    case _ r hr =>
      rw [if_pos (htruthy sms r hsc hr)]
      split
      case _ sms2 heq =>
        injection heq with heq2
        subst heq2
        refine ⟨setMember (setMember ms "name" (Json.str newName)) "scripts"
          (Json.obj (delMember sms "rename")), rfl, ?_, ?_, ?_, ?_⟩
        · rw [lookup_setMember_ne _ "scripts" "name" _ (by decide)]
          exact hname
        · intro sms' hs
          rw [lookup_setMember_self] at hs
          injection hs with hsa
          injection hsa with hsb
          subst hsb
          exact lookup_delMember_self sms "rename"
        · intro k hk1 hk2
          rw [lookup_setMember_ne _ "scripts" k _ hk2,
            lookup_setMember_ne ms "name" k _ hk1]
        · intro sms0 sms' hs0 hs'
          rw [hsc] at hs0
          injection hs0 with hs0a
          injection hs0a with hs0b
          subst hs0b
          rw [lookup_setMember_self] at hs'
          injection hs' with hsa
          injection hsa with hsb
          subst hsb
          intro k hk
          exact lookup_delMember_ne sms "rename" k hk
      case _ hne =>
        exact absurd rfl (fun h => by exact (hne sms h).elim)
    case _ hr =>
      refine ⟨setMember ms "name" (Json.str newName), rfl, hname, ?_, ?_, ?_⟩
      · intro sms' hs
        rw [hscr] at hs
        rw [hsc] at hs
        injection hs with hs2
        injection hs2 with hs3
        subst hs3
        exact hr
      · intro k hk1 hk2
        exact lookup_setMember_ne ms "name" k (Json.str newName) hk1
      · intro sms0 sms' hs0 hs'
        rw [hsc] at hs0
        injection hs0 with hs0a
        injection hs0a with hs0b
        subst hs0b
        rw [hscr] at hs'
        rw [hsc] at hs'
        injection hs' with hsa
        injection hsa with hsb
        subst hsb
        intro k hk
        rfl
  case _ hsc =>
    rw [hscr] at hsc
    refine ⟨setMember ms "name" (Json.str newName), rfl, hname, ?_, ?_, ?_⟩
    · intro sms' hs
      rw [hscr] at hs
      rw [hsc] at hs
      exact Option.noConfusion hs
    · intro k hk1 hk2
      exact lookup_setMember_ne ms "name" k (Json.str newName) hk1
    · intro sms0 sms' hs0 hs'
      rw [hsc] at hs0
      exact Option.noConfusion hs0

/-- Witness for C5's amended theorem at the spec's scenario manifest. -/
theorem C5_witness :
    ∃ result, updatePackageJsonData "new-project"
      (Json.obj [("name", Json.str "old-project"),
        ("scripts", Json.obj [("start", Json.str "x"),
          ("rename", Json.str "y")])]) = Json.obj result ∧
      lookupMember result "name" = some (Json.str "new-project") ∧
      (∀ sms', lookupMember result "scripts" = some (Json.obj sms') →
        lookupMember sms' "rename" = none) ∧
      (∀ k, k ≠ "name" → k ≠ "scripts" →
        lookupMember result k = lookupMember [("name", Json.str "old-project"),
          ("scripts", Json.obj [("start", Json.str "x"),
            ("rename", Json.str "y")])] k) ∧
      (∀ sms sms', lookupMember [("name", Json.str "old-project"),
          ("scripts", Json.obj [("start", Json.str "x"),
            ("rename", Json.str "y")])] "scripts" = some (Json.obj sms) →
        lookupMember result "scripts" = some (Json.obj sms') →
        ∀ k, k ≠ "rename" → lookupMember sms' k = lookupMember sms k) :=
  C5_amended "new-project" _ rfl (fun sms r hs hr => by
    have h1 : Json.obj [("start", Json.str "x"), ("rename", Json.str "y")] =
        Json.obj sms := Option.some.inj hs
    have h2 : [("start", Json.str "x"), ("rename", Json.str "y")] = sms :=
      Json.obj.inj h1
    subst h2
    have h3 : Json.str "y" = r := Option.some.inj hr
    subst h3
    rfl)

/-! ## Whitespace and scanning lemmas for the parser -/

theorem skipWs_cons_not_ws {c : Char} {l : List Char} (h : jsonWsChar c = false) :
    skipWs (c :: l) = c :: l := by
  simp [skipWs, List.dropWhile, h]

theorem skipWs_ws_append {u : List Char} (h : ∀ c ∈ u, jsonWsChar c = true) :
    ∀ l, skipWs (u ++ l) = skipWs l := by
  induction u with
  | nil => intro l; rfl
  | cons c u' ih =>
    intro l
    simp only [List.cons_append, skipWs, List.dropWhile, h c (by simp)]
    exact ih (fun d hd => h d (by simp [hd])) l

theorem spaces_ws (n : Nat) : ∀ c ∈ spaces n, jsonWsChar c = true := by
  intro c hc
  have : c = ' ' := List.eq_of_mem_replicate hc
  subst this
  rfl

theorem takeWhile_append_stop {p : Char → Bool} {l k : List Char}
    (hl : ∀ c ∈ l, p c = true) (hk : ∀ c, k.head? = some c → p c = false) :
    (l ++ k).takeWhile p = l ∧ (l ++ k).dropWhile p = k := by
  induction l with
  | nil =>
    cases k with
    | nil => exact ⟨rfl, rfl⟩
    | cons c k' =>
      simp [List.takeWhile, List.dropWhile, hk c rfl]
  | cons c l' ih =>
    obtain ⟨h1, h2⟩ := ih (fun d hd => hl d (by simp [hd]))
    simp [List.takeWhile, List.dropWhile, hl c (by simp), h1, h2]

/-! ## Escaping lemmas -/

theorem escapeChar_plain {c : Char} (h : plainChar c = true) : escapeChar c = [c] := by
  have h1 : ¬(c = '"') := by
    intro e; subst e; exact absurd h (by decide)
  have h2 : ¬(c = '\\') := by
    intro e; subst e; exact absurd h (by decide)
  have h3 : ¬(c.toNat < 32) := by
    intro e
    simp [plainChar, h1, h2, e] at h
  have h4 : ¬(c = '\x08') := fun e => h3 (by subst e; decide)
  have h5 : ¬(c = '\t') := fun e => h3 (by subst e; decide)
  have h6 : ¬(c = '\n') := fun e => h3 (by subst e; decide)
  have h7 : ¬(c = '\x0c') := fun e => h3 (by subst e; decide)
  have h8 : ¬(c = '\r') := fun e => h3 (by subst e; decide)
  simp [escapeChar, h1, h2, h3, h4, h5, h6, h7, h8]

theorem escapeStr_plain {s : List Char} (h : ∀ c ∈ s, plainChar c = true) :
    escapeStr s = s := by
  induction s with
  | nil => rfl
  | cons c s' ih =>
    simp only [escapeStr, List.map, List.flatten]
    rw [escapeChar_plain (h c (by simp))]
    have := ih (fun d hd => h d (by simp [hd]))
    simp only [escapeStr] at this
    rw [this]
    rfl

/-! ## String-literal parsing lemmas -/

theorem pStringAux_plain : ∀ (s : List Char) (k acc : List Char),
    (∀ c ∈ s, plainChar c = true) →
    pStringAux (s ++ '"' :: k) acc = some (String.mk (acc.reverse ++ s), k)
  | [], k, acc, _ => by
    show pStringAux ('"' :: k) acc = _
    rw [show pStringAux ('"' :: k) acc = some (String.mk acc.reverse, k) from rfl]
    simp
  | c :: s', k, acc, h => by
    have hc := h c (by simp)
    have h1 : ¬(c = '"') := by
      intro e; subst e; exact absurd hc (by decide)
    have h2 : ¬(c = '\\') := by
      intro e; subst e; exact absurd hc (by decide)
    simp only [List.cons_append, pStringAux, if_neg h1, if_neg h2, List.append_eq]
    rw [pStringAux_plain s' k (c :: acc) (fun d hd => h d (by simp [hd]))]
    simp

/-! ## Digit-string lemmas -/

theorem natCharsAux_irrel : ∀ (n f1 f2 : Nat), n ≤ f1 → n ≤ f2 →
    natCharsAux f1 n = natCharsAux f2 n := by
  intro n
  induction n using Nat.strong_induction_on with
  | _ n ih =>
    intro f1 f2 h1 h2
    by_cases hn : n < 10
    · cases f1 with
      | zero =>
        cases f2 with
        | zero => rfl
        | succ f2' =>
          have hn0 : n = 0 := Nat.le_zero.mp h1
          subst hn0
          simp [natCharsAux]
      | succ f1' =>
        cases f2 with
        | zero =>
          have hn0 : n = 0 := Nat.le_zero.mp h2
          subst hn0
          simp [natCharsAux]
        | succ f2' => simp [natCharsAux, hn]
    · have h10 : 10 ≤ n := Nat.le_of_not_lt hn
      obtain ⟨f1', rfl⟩ : ∃ m, f1 = m + 1 := ⟨f1 - 1, by omega⟩
      obtain ⟨f2', rfl⟩ : ∃ m, f2 = m + 1 := ⟨f2 - 1, by omega⟩
      simp only [natCharsAux, if_neg hn]
      have hdiv : n / 10 < n := Nat.div_lt_self (by omega) (by omega)
      rw [ih (n / 10) hdiv f1' f2' (by omega) (by omega)]

theorem natChars_eq (n : Nat) {f : Nat} (hf : n ≤ f) :
    natCharsAux f n = natChars n :=
  natCharsAux_irrel n f n hf le_rfl

theorem natChars_small {n : Nat} (h : n < 10) :
    natChars n = [Char.ofNat (48 + n)] := by
  cases n with
  | zero => rfl
  | succ m => simp [natChars, natCharsAux, h]

theorem natChars_step {n : Nat} (h : 10 ≤ n) :
    natChars n = natChars (n / 10) ++ [Char.ofNat (48 + n % 10)] := by
  obtain ⟨m, rfl⟩ : ∃ m, n = m + 1 := ⟨n - 1, by omega⟩
  show natCharsAux (m + 1) (m + 1) = _
  simp only [natCharsAux, if_neg (by omega : ¬(m + 1 < 10))]
  rw [natChars_eq ((m + 1) / 10) (by omega)]

theorem digit_char_digit {d : Nat} (h : d < 10) :
    isDigitCh (Char.ofNat (48 + d)) = true := by
  interval_cases d <;> decide

theorem digit_char_props {d : Nat} (h : d < 10) :
    jsonWsChar (Char.ofNat (48 + d)) = false ∧ Char.ofNat (48 + d) ≠ '-' ∧
    Char.ofNat (48 + d) ≠ ']' ∧ Char.ofNat (48 + d) ≠ '}' ∧
    Char.ofNat (48 + d) ≠ '"' ∧ digVal (Char.ofNat (48 + d)) = d := by
  interval_cases d <;> refine ⟨rfl, by decide, by decide, by decide, by decide, rfl⟩

theorem natChars_digits (n : Nat) : ∀ c ∈ natChars n, isDigitCh c = true := by
  induction n using Nat.strong_induction_on with
  | _ n ih =>
    by_cases hn : n < 10
    · rw [natChars_small hn]
      intro c hc
      rcases List.mem_singleton.mp hc with rfl
      exact digit_char_digit hn
    · rw [natChars_step (by omega)]
      intro c hc
      rcases List.mem_append.mp hc with hc' | hc'
      · exact ih (n / 10) (Nat.div_lt_self (by omega) (by omega)) c hc'
      · rcases List.mem_singleton.mp hc' with rfl
        exact digit_char_digit (Nat.mod_lt _ (by omega))

theorem natChars_head (n : Nat) : ∃ d t, natChars n = Char.ofNat (48 + d) :: t ∧ d < 10 := by
  induction n using Nat.strong_induction_on with
  | _ n ih =>
    by_cases hn : n < 10
    · exact ⟨n, [], natChars_small hn, hn⟩
    · obtain ⟨d, t, he, hd⟩ := ih (n / 10) (Nat.div_lt_self (by omega) (by omega))
      exact ⟨d, t ++ [Char.ofNat (48 + n % 10)], by rw [natChars_step (by omega), he]; rfl, hd⟩

theorem digsToNat_natChars_aux (n : Nat) : ∀ acc : Nat,
    List.foldl (fun a c => a * 10 + digVal c) acc (natChars n) =
      acc * 10 ^ (natChars n).length + n := by
  induction n using Nat.strong_induction_on with
  | _ n ih =>
    intro acc
    by_cases hn : n < 10
    · rw [natChars_small hn]
      simp [List.foldl, (digit_char_props hn).2.2.2.2.2]
    · rw [natChars_step (by omega)]
      rw [List.foldl_append]
      rw [ih (n / 10) (Nat.div_lt_self (by omega) (by omega)) acc]
      simp only [List.foldl, List.length_append, List.length_singleton]
      rw [(digit_char_props (Nat.mod_lt n (by omega))).2.2.2.2.2]
      rw [pow_succ]
      have hmod : n / 10 * 10 + n % 10 = n := by omega
      calc (acc * 10 ^ (natChars (n / 10)).length + n / 10) * 10 + n % 10
          = acc * (10 ^ (natChars (n / 10)).length * 10) +
            (n / 10 * 10 + n % 10) := by ring
        _ = acc * (10 ^ (natChars (n / 10)).length * 10) + n := by rw [hmod]

theorem digsToNat_natChars (n : Nat) : digsToNat (natChars n) = n := by
  unfold digsToNat
  rw [digsToNat_natChars_aux n 0]
  simp

/-! ## Number parsing lemmas -/

theorem pNat_natChars (n : Nat) (k : List Char) (hk : NumSafeTail k) :
    pNat (natChars n ++ k) = some (n, k) := by
  obtain ⟨ht, hd⟩ := takeWhile_append_stop (natChars_digits n) hk
  have hne : natChars n ≠ [] := by
    obtain ⟨d, t, he, _⟩ := natChars_head n
    rw [he]; simp
  simp only [pNat, ht, hd]
  rw [if_neg (by simpa [List.isEmpty_iff] using hne)]
  rw [digsToNat_natChars]

theorem not_ws_of_digit_or_minus {c : Char}
    (hd : isDigitCh c = true ∨ c = '-') : jsonWsChar c = false := by
  have h1 : c ≠ ' ' := by
    rintro rfl; rcases hd with h | h <;> exact absurd h (by decide)
  have h2 : c ≠ '\t' := by
    rintro rfl; rcases hd with h | h <;> exact absurd h (by decide)
  have h3 : c ≠ '\n' := by
    rintro rfl; rcases hd with h | h <;> exact absurd h (by decide)
  have h4 : c ≠ '\r' := by
    rintro rfl; rcases hd with h | h <;> exact absurd h (by decide)
  simp [jsonWsChar, h1, h2, h3, h4]

theorem pNum_not_minus {c : Char} (t : List Char) (h : ¬(c = '-')) :
    pNum (c :: t) =
      (pNat (c :: t)).map fun p => (Json.num ((p.1 : Nat) : Int), p.2) := by
  rw [pNum.eq_def]
  split
  · rename_i rest heq
    injection heq with h1 _
    exact absurd h1 h
  · rfl

theorem pNum_intChars (n : Int) (k : List Char) (hk : NumSafeTail k) :
    pNum (intChars n ++ k) = some (Json.num n, k) := by
  by_cases hn : n < 0
  · have h1 : pNum (intChars n ++ k) = (pNat (natChars n.natAbs ++ k)).map
        (fun p => (Json.num (-(p.1 : Int)), p.2)) := by
      unfold intChars
      rw [if_pos hn]
      rfl
    rw [h1, pNat_natChars n.natAbs k hk]
    have h2 : -((n.natAbs : Nat) : Int) = n := by omega
    show some (Json.num (-((n.natAbs : Nat) : Int)), k) = some (Json.num n, k)
    rw [h2]
  · have hi : intChars n = natChars n.natAbs := by
      unfold intChars
      rw [if_neg hn]
    obtain ⟨d, t, he, hd⟩ := natChars_head n.natAbs
    have hdm := (digit_char_props hd).2.1
    rw [hi, he, List.cons_append, pNum_not_minus _ hdm, ← List.cons_append, ← he,
      pNat_natChars n.natAbs k hk]
    have h2 : ((n.natAbs : Nat) : Int) = n := by omega
    show some (Json.num ((n.natAbs : Nat) : Int), k) = some (Json.num n, k)
    rw [h2]

/-! ## Parser entry lemmas -/

theorem pVal_skipWs_congr (f : Nat) {l l' : List Char}
    (h : skipWs l = skipWs l') : pVal (f + 1) l = pVal (f + 1) l' := by
  simp only [pVal]
  rw [h]

theorem pVal_num_entry (f : Nat) (c : Char) (t : List Char)
    (hd : isDigitCh c = true ∨ c = '-') :
    pVal (f + 1) (c :: t) = pNum (c :: t) := by
  have hws : jsonWsChar c = false := not_ws_of_digit_or_minus hd
  simp only [pVal]
  rw [skipWs_cons_not_ws hws]
  split <;> first
    | rfl
    | (rename_i heq
       injection heq with h1 h2
       subst h1
       rcases hd with h | h <;> exact absurd h (by decide))

theorem sVal_head (j : Json) (ind : Nat) : ∃ c t, sVal j ind = c :: t ∧
    jsonWsChar c = false ∧ c ≠ ']' ∧ c ≠ '}' := by
  cases j with
  | null => exact ⟨'n', _, rfl, rfl, by decide, by decide⟩
  | bool b =>
    cases b
    · exact ⟨'f', _, rfl, rfl, by decide, by decide⟩
    · exact ⟨'t', _, rfl, rfl, by decide, by decide⟩
  | num n =>
    by_cases hn : n < 0
    · refine ⟨'-', natChars n.natAbs, ?_, rfl, by decide, by decide⟩
      simp [sVal, intChars, hn]
    · obtain ⟨d, t, he, hd⟩ := natChars_head n.natAbs
      obtain ⟨hw, hm, hb, hbr, hq, _⟩ := digit_char_props hd
      refine ⟨Char.ofNat (48 + d), t, ?_, hw, hb, hbr⟩
      simp [sVal, intChars, hn, he]
  | str s => exact ⟨'"', _, rfl, rfl, by decide, by decide⟩
  | arr xs =>
    cases xs with
    | nil => exact ⟨'[', _, rfl, rfl, by decide, by decide⟩
    | cons x xs' => exact ⟨'[', _, rfl, rfl, by decide, by decide⟩
  | obj ms =>
    cases ms with
    | nil => exact ⟨'\x7b', _, rfl, rfl, by decide, by decide⟩
    | cons m ms' => exact ⟨'\x7b', _, rfl, rfl, by decide, by decide⟩

theorem sVal_ne_nil (j : Json) (ind : Nat) : sVal j ind ≠ [] := by
  obtain ⟨c, t, he, -⟩ := sVal_head j ind
  rw [he]
  simp

/-! ## pVal dispatch lemmas (one per leading character) -/

theorem pVal_null_entry (f : Nat) (rest : List Char) :
    pVal (f + 1) ('n' :: 'u' :: 'l' :: 'l' :: rest) = some (Json.null, rest) := rfl

theorem pVal_true_entry (f : Nat) (rest : List Char) :
    pVal (f + 1) ('t' :: 'r' :: 'u' :: 'e' :: rest) = some (Json.bool true, rest) := rfl

theorem pVal_false_entry (f : Nat) (rest : List Char) :
    pVal (f + 1) ('f' :: 'a' :: 'l' :: 's' :: 'e' :: rest) =
      some (Json.bool false, rest) := rfl

theorem pVal_quote_entry (f : Nat) (rest : List Char) :
    pVal (f + 1) ('"' :: rest) =
      (pStringAux rest []).map fun p => (Json.str p.1, p.2) := rfl

theorem pVal_lbrack_entry (f : Nat) (rest : List Char) :
    pVal (f + 1) ('[' :: rest) = pArrStart f rest := rfl

theorem pVal_lbrace_entry (f : Nat) (rest : List Char) :
    pVal (f + 1) ('\x7b' :: rest) = pObjStart f rest := rfl

theorem pArrStart_nonempty {c : Char} {rest rest2 : List Char} (f : Nat)
    (h : skipWs rest = c :: rest2) (hc : c ≠ ']') :
    pArrStart f rest = pArrElems f rest [] := by
  simp only [pArrStart]
  rw [h]
  split
  · rename_i r2 heq
    injection heq with h1 _
    exact absurd h1 hc
  · rfl

theorem pObjStart_nonempty {c : Char} {rest rest2 : List Char} (f : Nat)
    (h : skipWs rest = c :: rest2) (hc : c ≠ '\x7d') :
    pObjStart f rest = pObjMembers f rest [] := by
  simp only [pObjStart]
  rw [h]
  split
  · rename_i r2 heq
    injection heq with h1 _
    exact absurd h1 hc
  · rfl

/-! ## Serialization length and plainness lemmas -/

theorem sVal_length_pos (j : Json) (ind : Nat) : 1 ≤ (sVal j ind).length := by
  obtain ⟨c, t, he, -⟩ := sVal_head j ind
  rw [he]
  simp

theorem sVal_arr_cons_length (x : Json) (xs : List Json) (ind : Nat) :
    (sVal x (ind + 2)).length + (sArrTail xs (ind + 2)).length + 4 ≤
      (sVal (Json.arr (x :: xs)) ind).length := by
  show _ < ('[' :: '\n' :: (spaces (ind + 2) ++ (sVal x (ind + 2) ++
    (sArrTail xs (ind + 2) ++ '\n' :: (spaces ind ++ [']']))))).length
  simp [spaces]
  omega

theorem sVal_obj_cons_length (m : String × Json) (ms : List (String × Json)) (ind : Nat) :
    (sMember m (ind + 2)).length + (sObjTail ms (ind + 2)).length + 4 ≤
      (sVal (Json.obj (m :: ms)) ind).length := by
  show _ < ('\x7b' :: '\n' :: (spaces (ind + 2) ++ (sMember m (ind + 2) ++
    (sObjTail ms (ind + 2) ++ '\n' :: (spaces ind ++ ['\x7d']))))).length
  simp [spaces]
  omega

theorem sArrTail_cons_length (x' : Json) (xs' : List Json) (ind : Nat) :
    (sVal x' ind).length + (sArrTail xs' ind).length + 2 ≤
      (sArrTail (x' :: xs') ind).length := by
  show _ ≤ (',' :: '\n' :: (spaces ind ++ (sVal x' ind ++ sArrTail xs' ind))).length
  simp [spaces]

theorem sObjTail_cons_length (m' : String × Json) (ms' : List (String × Json)) (ind : Nat) :
    (sMember m' ind).length + (sObjTail ms' ind).length + 2 ≤
      (sObjTail (m' :: ms') ind).length := by
  show _ ≤ (',' :: '\n' :: (spaces ind ++ (sMember m' ind ++ sObjTail ms' ind))).length
  simp [spaces]

theorem sMember_val_length (k1 : String) (v : Json) (ind : Nat) :
    (sVal v ind).length + 4 ≤ (sMember (k1, v) ind).length := by
  show _ ≤ ('"' :: (escapeStr k1.data ++ ('"' :: ':' :: ' ' :: sVal v ind))).length
  simp
  try omega

theorem numSafeTail_cons {c : Char} (h : isDigitCh c = false) (l : List Char) :
    NumSafeTail (c :: l) := by
  intro c' hc'
  have : c = c' := Option.some.inj hc'
  subst this
  exact h

theorem String_mk_data (s : String) : String.mk s.data = s := rfl

/-! ## Number entry into the parser -/

theorem pVal_intChars_entry (f : Nat) (n : Int) (k : List Char) (hk : NumSafeTail k) :
    pVal (f + 1) (intChars n ++ k) = some (Json.num n, k) := by
  by_cases hn : n < 0
  · have hi : intChars n = '-' :: natChars n.natAbs := by
      unfold intChars
      rw [if_pos hn]
    rw [hi, List.cons_append, pVal_num_entry f '-' (natChars n.natAbs ++ k) (Or.inr rfl),
      ← List.cons_append, ← hi]
    exact pNum_intChars n k hk
  · have hi : intChars n = natChars n.natAbs := by
      unfold intChars
      rw [if_neg hn]
    obtain ⟨d, t, he, hd⟩ := natChars_head n.natAbs
    have hdig : isDigitCh (Char.ofNat (48 + d)) = true :=
      natChars_digits n.natAbs _ (by rw [he]; exact List.mem_cons_self _ _)
    rw [hi, he, List.cons_append, pVal_num_entry f _ (t ++ k) (Or.inl hdig),
      ← List.cons_append, ← he, ← hi]
    exact pNum_intChars n k hk

/-! ## Whitespace-skipping helpers for the layout `stringifyJson` emits -/

theorem nl_spaces_ws (n : Nat) : ∀ d ∈ ('\n' :: spaces n), jsonWsChar d = true := by
  intro d hd
  rcases List.mem_cons.mp hd with rfl | hd'
  · rfl
  · exact spaces_ws n d hd'

theorem skipWs_nl_spaces (n : Nat) (l : List Char) :
    skipWs ('\n' :: (spaces n ++ l)) = skipWs l := by
  show skipWs (('\n' :: spaces n) ++ l) = skipWs l
  exact skipWs_ws_append (nl_spaces_ws n) l

theorem numSafeTail_arrK (xs : List Json) (ind2 ind : Nat) (k : List Char) :
    NumSafeTail (sArrTail xs ind2 ++ ('\n' :: (spaces ind ++ (']' :: k)))) := by
  cases xs with
  | nil => exact @numSafeTail_cons '\n' (by decide) _
  | cons a b => exact @numSafeTail_cons ',' (by decide) _

theorem numSafeTail_objK (ms : List (String × Json)) (ind2 ind : Nat) (k : List Char) :
    NumSafeTail (sObjTail ms ind2 ++ ('\n' :: (spaces ind ++ ('\x7d' :: k)))) := by
  cases ms with
  | nil => exact @numSafeTail_cons '\n' (by decide) _
  | cons a b => exact @numSafeTail_cons ',' (by decide) _

/-! ## The serialize/parse round trip -/

mutual

/-- Parsing the serialization of a plain-atoms value, followed by a
continuation that cannot extend a number literal, returns the value and
the continuation untouched. -/
theorem pVal_roundtrip : ∀ (j : Json) (ind : Nat) (k : List Char) (fuel : Nat),
    plainAtoms j = true → NumSafeTail k → (sVal j ind).length < fuel →
    pVal fuel (sVal j ind ++ k) = some (j, k)
  | Json.null, ind, k, fuel, hp, hk, hf => by
    obtain ⟨f, rfl⟩ : ∃ f, fuel = f + 1 := ⟨fuel - 1, by omega⟩
    exact pVal_null_entry f k
  | Json.bool false, ind, k, fuel, hp, hk, hf => by
    obtain ⟨f, rfl⟩ : ∃ f, fuel = f + 1 := ⟨fuel - 1, by omega⟩
    exact pVal_false_entry f k
  | Json.bool true, ind, k, fuel, hp, hk, hf => by
    obtain ⟨f, rfl⟩ : ∃ f, fuel = f + 1 := ⟨fuel - 1, by omega⟩
    exact pVal_true_entry f k
  | Json.num n, ind, k, fuel, hp, hk, hf => by
    obtain ⟨f, rfl⟩ : ∃ f, fuel = f + 1 := ⟨fuel - 1, by omega⟩
    exact pVal_intChars_entry f n k hk
  | Json.str s, ind, k, fuel, hp, hk, hf => by
    obtain ⟨f, rfl⟩ : ∃ f, fuel = f + 1 := ⟨fuel - 1, by omega⟩
    have hps : ∀ c ∈ s.data, plainChar c = true := by
      have h0 : s.data.all plainChar = true := hp
      simpa [List.all_eq_true] using h0
    have hshape : sVal (Json.str s) ind ++ k = '"' :: (s.data ++ ('"' :: k)) := by
      show ('"' :: (escapeStr s.data ++ ['"'])) ++ k = _
      rw [escapeStr_plain hps]
      simp
    rw [hshape, pVal_quote_entry f (s.data ++ ('"' :: k)),
      pStringAux_plain s.data k [] hps]
    simp [String_mk_data]
  | Json.arr [], ind, k, fuel, hp, hk, hf => by
    obtain ⟨f, rfl⟩ : ∃ f, fuel = f + 1 := ⟨fuel - 1, by omega⟩
    show pVal (f + 1) ('[' :: ']' :: k) = some (Json.arr [], k)
    rfl
  | Json.arr (x :: xs), ind, k, fuel, hp, hk, hf => by
    obtain ⟨f, rfl⟩ : ∃ f, fuel = f + 1 := ⟨fuel - 1, by omega⟩
    have hx : plainAtoms x = true ∧ plainAtomsList xs = true := by
      have h0 : plainAtomsList (x :: xs) = true := hp
      simpa [plainAtomsList] using h0
    obtain ⟨c, t, hch, hcw, hcb, hcbr⟩ := sVal_head x (ind + 2)
    have hshape : sVal (Json.arr (x :: xs)) ind ++ k =
        '[' :: ('\n' :: (spaces (ind + 2) ++ (sVal x (ind + 2) ++ (sArrTail xs (ind + 2) ++
          ('\n' :: (spaces ind ++ (']' :: k))))))) := by
      show ('[' :: '\n' :: (spaces (ind + 2) ++ (sVal x (ind + 2) ++ (sArrTail xs (ind + 2)
        ++ '\n' :: (spaces ind ++ [']']))))) ++ k = _
      simp
    have hskip : skipWs ('\n' :: (spaces (ind + 2) ++ (sVal x (ind + 2) ++
        (sArrTail xs (ind + 2) ++ ('\n' :: (spaces ind ++ (']' :: k))))))) =
        c :: (t ++ (sArrTail xs (ind + 2) ++ ('\n' :: (spaces ind ++ (']' :: k))))) := by
      rw [skipWs_nl_spaces, hch]
      show skipWs (c :: (t ++ (sArrTail xs (ind + 2) ++
        ('\n' :: (spaces ind ++ (']' :: k)))))) =
        c :: (t ++ (sArrTail xs (ind + 2) ++ ('\n' :: (spaces ind ++ (']' :: k)))))
      exact skipWs_cons_not_ws hcw
    rw [hshape, pVal_lbrack_entry f, pArrStart_nonempty f hskip hcb]
    have hfl : (sVal x (ind + 2)).length + (sArrTail xs (ind + 2)).length + 1 < f := by
      have h1 := sVal_arr_cons_length x xs ind
      have h2 : (sVal (Json.arr (x :: xs)) ind).length < f + 1 := hf
      omega
    exact pArrElems_roundtrip x xs (ind + 2) ind k [] f hx.1 hx.2 hfl
  | Json.obj [], ind, k, fuel, hp, hk, hf => by
    obtain ⟨f, rfl⟩ : ∃ f, fuel = f + 1 := ⟨fuel - 1, by omega⟩
    show pVal (f + 1) ('\x7b' :: '\x7d' :: k) = some (Json.obj [], k)
    rfl
  | Json.obj ((k1, v) :: ms), ind, k, fuel, hp, hk, hf => by
    obtain ⟨f, rfl⟩ : ∃ f, fuel = f + 1 := ⟨fuel - 1, by omega⟩
    have hm : (k1.data.all plainChar = true ∧ plainAtoms v = true) ∧
        plainAtomsMembers ms = true := by
      have h0 : plainAtomsMembers ((k1, v) :: ms) = true := hp
      simpa [plainAtomsMembers] using h0
    have hshape : sVal (Json.obj ((k1, v) :: ms)) ind ++ k =
        '\x7b' :: ('\n' :: (spaces (ind + 2) ++ (sMember (k1, v) (ind + 2) ++
          (sObjTail ms (ind + 2) ++ ('\n' :: (spaces ind ++ ('\x7d' :: k))))))) := by
      show ('\x7b' :: '\n' :: (spaces (ind + 2) ++ (sMember (k1, v) (ind + 2) ++
        (sObjTail ms (ind + 2) ++ '\n' :: (spaces ind ++ ['\x7d']))))) ++ k = _
      simp
    have hskip : skipWs ('\n' :: (spaces (ind + 2) ++ (sMember (k1, v) (ind + 2) ++
        (sObjTail ms (ind + 2) ++ ('\n' :: (spaces ind ++ ('\x7d' :: k))))))) =
        '"' :: ((escapeStr k1.data ++ ('"' :: ':' :: ' ' :: sVal v (ind + 2))) ++
          (sObjTail ms (ind + 2) ++ ('\n' :: (spaces ind ++ ('\x7d' :: k))))) := by
      rw [skipWs_nl_spaces]
      exact skipWs_cons_not_ws (by decide)
    rw [hshape, pVal_lbrace_entry f, pObjStart_nonempty f hskip (by decide)]
    have hfl : (sMember (k1, v) (ind + 2)).length +
        (sObjTail ms (ind + 2)).length + 1 < f := by
      have h1 := sVal_obj_cons_length (k1, v) ms ind
      have h2 : (sVal (Json.obj ((k1, v) :: ms)) ind).length < f + 1 := hf
      omega
    exact pObjMembers_roundtrip k1 v ms (ind + 2) ind k [] f hm.1.1 hm.1.2 hm.2 hfl
termination_by j ind k fuel hp hk hf => sizeOf j

/-- Parsing the serialized elements of a nonempty array returns the whole
array (accumulator included) and the continuation. -/
theorem pArrElems_roundtrip : ∀ (x : Json) (xs : List Json) (ind2 ind : Nat)
    (k : List Char) (acc : List Json) (fuel : Nat),
    plainAtoms x = true → plainAtomsList xs = true →
    (sVal x ind2).length + (sArrTail xs ind2).length + 1 < fuel →
    pArrElems fuel ('\n' :: (spaces ind2 ++ (sVal x ind2 ++ (sArrTail xs ind2 ++
      ('\n' :: (spaces ind ++ (']' :: k))))))) acc =
      some (Json.arr (acc.reverse ++ x :: xs), k)
  | x, [], ind2, ind, k, acc, fuel, hpx, hpxs, hf => by
    have hx1 := sVal_length_pos x ind2
    obtain ⟨f, rfl⟩ : ∃ f, fuel = f + 2 := ⟨fuel - 2, by omega⟩
    have hpv : pVal (f + 1) ('\n' :: (spaces ind2 ++ (sVal x ind2 ++
        (sArrTail ([] : List Json) ind2 ++ ('\n' :: (spaces ind ++ (']' :: k))))))) =
        some (x, sArrTail ([] : List Json) ind2 ++ ('\n' :: (spaces ind ++ (']' :: k)))) := by
      rw [pVal_skipWs_congr f (skipWs_nl_spaces ind2 (sVal x ind2 ++
        (sArrTail ([] : List Json) ind2 ++ ('\n' :: (spaces ind ++ (']' :: k))))))]
      exact pVal_roundtrip x ind2 (sArrTail ([] : List Json) ind2 ++
        ('\n' :: (spaces ind ++ (']' :: k)))) (f + 1) hpx
        (numSafeTail_arrK [] ind2 ind k) (by omega)
    show pArrElems (f + 1 + 1) ('\n' :: (spaces ind2 ++ (sVal x ind2 ++
      (sArrTail ([] : List Json) ind2 ++ ('\n' :: (spaces ind ++ (']' :: k))))))) acc =
      some (Json.arr (acc.reverse ++ x :: []), k)
    simp only [pArrElems]
    rw [hpv]
    simp only []
    have hsk : skipWs (sArrTail ([] : List Json) ind2 ++
        ('\n' :: (spaces ind ++ (']' :: k)))) = ']' :: k := by
      show skipWs ('\n' :: (spaces ind ++ (']' :: k))) = ']' :: k
      rw [skipWs_nl_spaces]
      exact skipWs_cons_not_ws (by decide)
    rw [hsk]
    simp only []
    simp
  | x, y :: ys, ind2, ind, k, acc, fuel, hpx, hpxs, hf => by
    have hx1 := sVal_length_pos x ind2
    obtain ⟨f, rfl⟩ : ∃ f, fuel = f + 2 := ⟨fuel - 2, by omega⟩
    have hpv : pVal (f + 1) ('\n' :: (spaces ind2 ++ (sVal x ind2 ++
        (sArrTail (y :: ys) ind2 ++ ('\n' :: (spaces ind ++ (']' :: k))))))) =
        some (x, sArrTail (y :: ys) ind2 ++ ('\n' :: (spaces ind ++ (']' :: k)))) := by
      rw [pVal_skipWs_congr f (skipWs_nl_spaces ind2 (sVal x ind2 ++
        (sArrTail (y :: ys) ind2 ++ ('\n' :: (spaces ind ++ (']' :: k))))))]
      exact pVal_roundtrip x ind2 (sArrTail (y :: ys) ind2 ++
        ('\n' :: (spaces ind ++ (']' :: k)))) (f + 1) hpx
        (numSafeTail_arrK (y :: ys) ind2 ind k) (by omega)
    show pArrElems (f + 1 + 1) ('\n' :: (spaces ind2 ++ (sVal x ind2 ++
      (sArrTail (y :: ys) ind2 ++ ('\n' :: (spaces ind ++ (']' :: k))))))) acc =
      some (Json.arr (acc.reverse ++ x :: y :: ys), k)
    simp only [pArrElems]
    rw [hpv]
    simp only []
    have hy : plainAtoms y = true ∧ plainAtomsList ys = true := by
      have h0 : plainAtomsList (y :: ys) = true := hpxs
      simpa [plainAtomsList] using h0
    have hKeq : sArrTail (y :: ys) ind2 ++ ('\n' :: (spaces ind ++ (']' :: k))) =
        ',' :: ('\n' :: (spaces ind2 ++ (sVal y ind2 ++ (sArrTail ys ind2 ++
          ('\n' :: (spaces ind ++ (']' :: k))))))) := by
      show (',' :: '\n' :: (spaces ind2 ++ (sVal y ind2 ++ sArrTail ys ind2))) ++
        ('\n' :: (spaces ind ++ (']' :: k))) = _
      simp
    have hsk : skipWs (sArrTail (y :: ys) ind2 ++ ('\n' :: (spaces ind ++ (']' :: k)))) =
        ',' :: ('\n' :: (spaces ind2 ++ (sVal y ind2 ++ (sArrTail ys ind2 ++
          ('\n' :: (spaces ind ++ (']' :: k))))))) := by
      rw [hKeq]
      exact skipWs_cons_not_ws (by decide)
    rw [hsk]
    simp only []
    have hfl2 : (sVal y ind2).length + (sArrTail ys ind2).length + 1 < f + 1 := by
      have h1 := sArrTail_cons_length y ys ind2
      omega
    have hrec := pArrElems_roundtrip y ys ind2 ind k (x :: acc) (f + 1) hy.1 hy.2 hfl2
    simp only [pArrElems] at hrec
    rw [hrec]
    simp
termination_by x xs ind2 ind k acc fuel hpx hpxs hf => sizeOf x + sizeOf xs + 1

/-- Parsing the serialized members of a nonempty object returns the whole
object (accumulator included) and the continuation. -/
theorem pObjMembers_roundtrip : ∀ (k1 : String) (v : Json) (ms : List (String × Json))
    (ind2 ind : Nat) (k : List Char) (acc : List (String × Json)) (fuel : Nat),
    k1.data.all plainChar = true → plainAtoms v = true → plainAtomsMembers ms = true →
    (sMember (k1, v) ind2).length + (sObjTail ms ind2).length + 1 < fuel →
    pObjMembers fuel ('\n' :: (spaces ind2 ++ (sMember (k1, v) ind2 ++ (sObjTail ms ind2 ++
      ('\n' :: (spaces ind ++ ('\x7d' :: k))))))) acc =
      some (Json.obj (acc.reverse ++ (k1, v) :: ms), k)
  | k1, v, [], ind2, ind, k, acc, fuel, hpk, hpv, hpms, hf => by
    have hm1 := sMember_val_length k1 v ind2
    have hv1 := sVal_length_pos v ind2
    obtain ⟨f, rfl⟩ : ∃ f, fuel = f + 2 := ⟨fuel - 2, by omega⟩
    have hkplain : ∀ c ∈ k1.data, plainChar c = true := by
      simpa [List.all_eq_true] using hpk
    have hsk1 : skipWs ('\n' :: (spaces ind2 ++ (sMember (k1, v) ind2 ++
        (sObjTail ([] : List (String × Json)) ind2 ++
          ('\n' :: (spaces ind ++ ('\x7d' :: k))))))) =
        '"' :: ((escapeStr k1.data ++ ('"' :: ':' :: ' ' :: sVal v ind2)) ++
          (sObjTail ([] : List (String × Json)) ind2 ++
            ('\n' :: (spaces ind ++ ('\x7d' :: k))))) := by
      rw [skipWs_nl_spaces]
      exact skipWs_cons_not_ws (by decide)
    have hps : pStringAux ((escapeStr k1.data ++ ('"' :: ':' :: ' ' :: sVal v ind2)) ++
        (sObjTail ([] : List (String × Json)) ind2 ++
          ('\n' :: (spaces ind ++ ('\x7d' :: k))))) [] =
        some (String.mk k1.data, ':' :: ' ' :: (sVal v ind2 ++
          (sObjTail ([] : List (String × Json)) ind2 ++
            ('\n' :: (spaces ind ++ ('\x7d' :: k)))))) := by
      have he : (escapeStr k1.data ++ ('"' :: ':' :: ' ' :: sVal v ind2)) ++
          (sObjTail ([] : List (String × Json)) ind2 ++
            ('\n' :: (spaces ind ++ ('\x7d' :: k)))) =
          k1.data ++ ('"' :: (':' :: ' ' :: (sVal v ind2 ++
            (sObjTail ([] : List (String × Json)) ind2 ++
              ('\n' :: (spaces ind ++ ('\x7d' :: k))))))) := by
        rw [escapeStr_plain hkplain]
        simp
      rw [he, pStringAux_plain k1.data (':' :: ' ' :: (sVal v ind2 ++
        (sObjTail ([] : List (String × Json)) ind2 ++
          ('\n' :: (spaces ind ++ ('\x7d' :: k)))))) [] hkplain]
      simp
    have hsk2 : skipWs (':' :: ' ' :: (sVal v ind2 ++
        (sObjTail ([] : List (String × Json)) ind2 ++
          ('\n' :: (spaces ind ++ ('\x7d' :: k)))))) =
        ':' :: (' ' :: (sVal v ind2 ++ (sObjTail ([] : List (String × Json)) ind2 ++
          ('\n' :: (spaces ind ++ ('\x7d' :: k)))))) :=
      skipWs_cons_not_ws (by decide)
    have hspc : ∀ c ∈ ([' '] : List Char), jsonWsChar c = true := by
      intro c hc
      rw [List.mem_singleton] at hc
      subst hc
      rfl
    have hpv2 : pVal (f + 1) (' ' :: (sVal v ind2 ++
        (sObjTail ([] : List (String × Json)) ind2 ++
          ('\n' :: (spaces ind ++ ('\x7d' :: k)))))) =
        some (v, sObjTail ([] : List (String × Json)) ind2 ++
          ('\n' :: (spaces ind ++ ('\x7d' :: k)))) := by
      rw [pVal_skipWs_congr f (show skipWs (' ' :: (sVal v ind2 ++
        (sObjTail ([] : List (String × Json)) ind2 ++
          ('\n' :: (spaces ind ++ ('\x7d' :: k)))))) = skipWs (sVal v ind2 ++
        (sObjTail ([] : List (String × Json)) ind2 ++
          ('\n' :: (spaces ind ++ ('\x7d' :: k))))) from skipWs_ws_append hspc _)]
      exact pVal_roundtrip v ind2 (sObjTail ([] : List (String × Json)) ind2 ++
        ('\n' :: (spaces ind ++ ('\x7d' :: k)))) (f + 1) hpv
        (numSafeTail_objK [] ind2 ind k) (by omega)
    show pObjMembers (f + 1 + 1) ('\n' :: (spaces ind2 ++ (sMember (k1, v) ind2 ++
      (sObjTail ([] : List (String × Json)) ind2 ++
        ('\n' :: (spaces ind ++ ('\x7d' :: k))))))) acc =
      some (Json.obj (acc.reverse ++ (k1, v) :: []), k)
    simp only [pObjMembers]
    rw [hsk1]
    simp only []
    rw [hps]
    simp only []
    rw [hsk2]
    simp only []
    rw [hpv2]
    simp only []
    have hsk3 : skipWs (sObjTail ([] : List (String × Json)) ind2 ++
        ('\n' :: (spaces ind ++ ('\x7d' :: k)))) = '\x7d' :: k := by
      show skipWs ('\n' :: (spaces ind ++ ('\x7d' :: k))) = '\x7d' :: k
      rw [skipWs_nl_spaces]
      exact skipWs_cons_not_ws (by decide)
    rw [hsk3]
    simp only []
    simp [String_mk_data]
  | k1, v, (k1', v') :: ms', ind2, ind, k, acc, fuel, hpk, hpv, hpms, hf => by
    have hm1 := sMember_val_length k1 v ind2
    have hv1 := sVal_length_pos v ind2
    obtain ⟨f, rfl⟩ : ∃ f, fuel = f + 2 := ⟨fuel - 2, by omega⟩
    have hkplain : ∀ c ∈ k1.data, plainChar c = true := by
      simpa [List.all_eq_true] using hpk
    have hsk1 : skipWs ('\n' :: (spaces ind2 ++ (sMember (k1, v) ind2 ++
        (sObjTail ((k1', v') :: ms') ind2 ++
          ('\n' :: (spaces ind ++ ('\x7d' :: k))))))) =
        '"' :: ((escapeStr k1.data ++ ('"' :: ':' :: ' ' :: sVal v ind2)) ++
          (sObjTail ((k1', v') :: ms') ind2 ++
            ('\n' :: (spaces ind ++ ('\x7d' :: k))))) := by
      rw [skipWs_nl_spaces]
      exact skipWs_cons_not_ws (by decide)
    have hps : pStringAux ((escapeStr k1.data ++ ('"' :: ':' :: ' ' :: sVal v ind2)) ++
        (sObjTail ((k1', v') :: ms') ind2 ++
          ('\n' :: (spaces ind ++ ('\x7d' :: k))))) [] =
        some (String.mk k1.data, ':' :: ' ' :: (sVal v ind2 ++
          (sObjTail ((k1', v') :: ms') ind2 ++
            ('\n' :: (spaces ind ++ ('\x7d' :: k)))))) := by
      have he : (escapeStr k1.data ++ ('"' :: ':' :: ' ' :: sVal v ind2)) ++
          (sObjTail ((k1', v') :: ms') ind2 ++
            ('\n' :: (spaces ind ++ ('\x7d' :: k)))) =
          k1.data ++ ('"' :: (':' :: ' ' :: (sVal v ind2 ++
            (sObjTail ((k1', v') :: ms') ind2 ++
              ('\n' :: (spaces ind ++ ('\x7d' :: k))))))) := by
        rw [escapeStr_plain hkplain]
        simp
      rw [he, pStringAux_plain k1.data (':' :: ' ' :: (sVal v ind2 ++
        (sObjTail ((k1', v') :: ms') ind2 ++
          ('\n' :: (spaces ind ++ ('\x7d' :: k)))))) [] hkplain]
      simp
    have hsk2 : skipWs (':' :: ' ' :: (sVal v ind2 ++
        (sObjTail ((k1', v') :: ms') ind2 ++
          ('\n' :: (spaces ind ++ ('\x7d' :: k)))))) =
        ':' :: (' ' :: (sVal v ind2 ++ (sObjTail ((k1', v') :: ms') ind2 ++
          ('\n' :: (spaces ind ++ ('\x7d' :: k)))))) :=
      skipWs_cons_not_ws (by decide)
    have hspc : ∀ c ∈ ([' '] : List Char), jsonWsChar c = true := by
      intro c hc
      rw [List.mem_singleton] at hc
      subst hc
      rfl
    have hpv2 : pVal (f + 1) (' ' :: (sVal v ind2 ++
        (sObjTail ((k1', v') :: ms') ind2 ++
          ('\n' :: (spaces ind ++ ('\x7d' :: k)))))) =
        some (v, sObjTail ((k1', v') :: ms') ind2 ++
          ('\n' :: (spaces ind ++ ('\x7d' :: k)))) := by
      rw [pVal_skipWs_congr f (show skipWs (' ' :: (sVal v ind2 ++
        (sObjTail ((k1', v') :: ms') ind2 ++
          ('\n' :: (spaces ind ++ ('\x7d' :: k)))))) = skipWs (sVal v ind2 ++
        (sObjTail ((k1', v') :: ms') ind2 ++
          ('\n' :: (spaces ind ++ ('\x7d' :: k))))) from skipWs_ws_append hspc _)]
      exact pVal_roundtrip v ind2 (sObjTail ((k1', v') :: ms') ind2 ++
        ('\n' :: (spaces ind ++ ('\x7d' :: k)))) (f + 1) hpv
        (numSafeTail_objK ((k1', v') :: ms') ind2 ind k) (by omega)
    show pObjMembers (f + 1 + 1) ('\n' :: (spaces ind2 ++ (sMember (k1, v) ind2 ++
      (sObjTail ((k1', v') :: ms') ind2 ++
        ('\n' :: (spaces ind ++ ('\x7d' :: k))))))) acc =
      some (Json.obj (acc.reverse ++ (k1, v) :: (k1', v') :: ms'), k)
    simp only [pObjMembers]
    rw [hsk1]
    simp only []
    rw [hps]
    simp only []
    rw [hsk2]
    simp only []
    rw [hpv2]
    simp only []
    have hm' : (k1'.data.all plainChar = true ∧ plainAtoms v' = true) ∧
        plainAtomsMembers ms' = true := by
      have h0 : plainAtomsMembers ((k1', v') :: ms') = true := hpms
      simpa [plainAtomsMembers] using h0
    have hKeq : sObjTail ((k1', v') :: ms') ind2 ++
        ('\n' :: (spaces ind ++ ('\x7d' :: k))) =
        ',' :: ('\n' :: (spaces ind2 ++ (sMember (k1', v') ind2 ++ (sObjTail ms' ind2 ++
          ('\n' :: (spaces ind ++ ('\x7d' :: k))))))) := by
      show (',' :: '\n' :: (spaces ind2 ++ (sMember (k1', v') ind2 ++ sObjTail ms' ind2))) ++
        ('\n' :: (spaces ind ++ ('\x7d' :: k))) = _
      simp
    have hsk3 : skipWs (sObjTail ((k1', v') :: ms') ind2 ++
        ('\n' :: (spaces ind ++ ('\x7d' :: k)))) =
        ',' :: ('\n' :: (spaces ind2 ++ (sMember (k1', v') ind2 ++ (sObjTail ms' ind2 ++
          ('\n' :: (spaces ind ++ ('\x7d' :: k))))))) := by
      rw [hKeq]
      exact skipWs_cons_not_ws (by decide)
    rw [hsk3]
    simp only []
    have hfl2 : (sMember (k1', v') ind2).length + (sObjTail ms' ind2).length + 1 < f + 1 := by
      have h1 := sObjTail_cons_length (k1', v') ms' ind2
      omega
    have hrec := pObjMembers_roundtrip k1' v' ms' ind2 ind k ((String.mk k1.data, v) :: acc)
      (f + 1) hm'.1.1 hm'.1.2 hm'.2 hfl2
    simp only [pObjMembers] at hrec
    rw [hrec]
    simp [String_mk_data]
termination_by k1 v ms ind2 ind k acc fuel hpk hpv hpms hf =>
  sizeOf k1 + sizeOf v + sizeOf ms + 1

end

/-! ## Plainness preservation for member updates -/

theorem numSafeTail_nil : NumSafeTail ([] : List Char) := by
  intro c hc
  simp at hc

theorem parseJson_stringify (j : Json) (hp : plainAtoms j = true) :
    parseJson (stringifyJson j) = some j := by
  have h := pVal_roundtrip j 0 [] ((sVal j 0).length + 1) hp numSafeTail_nil (by omega)
  rw [List.append_nil] at h
  simp only [parseJson, stringifyJson]
  rw [h]
  simp only []
  rfl

theorem setMember_lookup_self (q : String) (x : Json) :
    ∀ l : List (String × Json), lookupMember l q = some x → setMember l q x = l := by
  intro l
  induction l with
  | nil => intro h; simp [lookupMember] at h
  | cons m rest ih =>
    obtain ⟨k', v'⟩ := m
    intro h
    by_cases hk : k' = q
    · subst hk
      simp [lookupMember] at h
      subst h
      simp [setMember]
    · simp only [lookupMember, if_neg hk] at h
      simp only [setMember, if_neg hk]
      rw [ih h]

theorem plain_lookup (q : String) (x : Json) :
    ∀ l : List (String × Json), plainAtomsMembers l = true →
      lookupMember l q = some x → plainAtoms x = true := by
  intro l
  induction l with
  | nil => intro _ h; simp [lookupMember] at h
  | cons m rest ih =>
    obtain ⟨k', v'⟩ := m
    intro hp h
    have hsplit : (k'.data.all plainChar = true ∧ plainAtoms v' = true) ∧
        plainAtomsMembers rest = true := by
      simpa [plainAtomsMembers] using hp
    by_cases hk : k' = q
    · subst hk
      simp [lookupMember] at h
      rw [← h]
      exact hsplit.1.2
    · simp only [lookupMember, if_neg hk] at h
      exact ih hsplit.2 h

theorem plain_delMember (q : String) :
    ∀ l : List (String × Json), plainAtomsMembers l = true →
      plainAtomsMembers (delMember l q) = true := by
  intro l
  induction l with
  | nil => intro h; exact h
  | cons m rest ih =>
    obtain ⟨k', v'⟩ := m
    intro hp
    have hsplit : (k'.data.all plainChar = true ∧ plainAtoms v' = true) ∧
        plainAtomsMembers rest = true := by
      simpa [plainAtomsMembers] using hp
    by_cases hk : k' = q
    · simp only [delMember, if_pos hk]
      exact ih hsplit.2
    · simp only [delMember, if_neg hk]
      show plainAtomsMembers ((k', v') :: delMember rest q) = true
      simp [plainAtomsMembers, hsplit.1.1, hsplit.1.2, ih hsplit.2]

theorem plain_setMember (q : String) (v : Json) (hq : q.data.all plainChar = true)
    (hv : plainAtoms v = true) :
    ∀ l : List (String × Json), plainAtomsMembers l = true →
      plainAtomsMembers (setMember l q v) = true := by
  intro l
  induction l with
  | nil =>
    intro _
    show plainAtomsMembers [(q, v)] = true
    simp [plainAtomsMembers, hq, hv]
  | cons m rest ih =>
    obtain ⟨k', v'⟩ := m
    intro hp
    have hsplit : (k'.data.all plainChar = true ∧ plainAtoms v' = true) ∧
        plainAtomsMembers rest = true := by
      simpa [plainAtomsMembers] using hp
    by_cases hk : k' = q
    · simp only [setMember, if_pos hk]
      show plainAtomsMembers ((q, v) :: rest) = true
      simp [plainAtomsMembers, hq, hv, hsplit.2]
    · simp only [setMember, if_neg hk]
      show plainAtomsMembers ((k', v') :: setMember rest q v) = true
      simp [plainAtomsMembers, hsplit.1.1, hsplit.1.2, ih hsplit.2]

/-- C9: renaming a project to its own name deletes the node. With
`oldName = newName = id` the rewrite assigns `projects[id] = projects[id]`
and then deletes `projects[id]`, the same property, so the written build
graph has no entry keyed `id` at all even though the rewriter reports a
successful write. -/
theorem C9_self_rename_deletes_node (id : String) (ms pms : List (String × Json))
    (oldProj : Json)
    (hplain : plainAtoms (Json.obj ms) = true)
    (hproj : lookupMember ms "projects" = some (Json.obj pms))
    (hlook : lookupMember pms id = some oldProj)
    (htruthy : oldProj.truthy = true) :
    updateAngularJson id id (some (stringifyJson (Json.obj ms))) =
      UpdateOutcome.written
        (sVal (Json.obj (setMember ms "projects" (Json.obj (delMember pms id)))) 0 ++
          ['\n']) ∧
    lookupMember (delMember pms id) id = none := by
  have hpms0 : plainAtomsMembers ms = true := hplain
  have hpms : plainAtomsMembers pms = true :=
    plain_lookup "projects" (Json.obj pms) ms hpms0 hproj
  have hpms1 : plainAtomsMembers (delMember pms id) = true := plain_delMember id pms hpms
  have hrenplain : plainAtoms (Json.obj (setMember ms "projects"
      (Json.obj (delMember pms id)))) = true :=
    plain_setMember "projects" (Json.obj (delMember pms id)) (by decide) hpms1 ms hpms0
  constructor
  · simp only [updateAngularJson]
    rw [parseJson_stringify (Json.obj ms) hplain]
    simp only []
    rw [hproj]
    simp only []
    rw [if_neg (by simp [Json.truthy])]
    rw [show Json.getMember (Json.obj pms) id = some oldProj from hlook]
    simp only []
    rw [if_neg (by simp [htruthy])]
    rw [setMember_lookup_self id oldProj pms hlook]
    rw [replaceL_self]
    rw [show parseJson (String.mk (sVal (Json.obj (setMember ms "projects"
      (Json.obj (delMember pms id)))) 0)) = some (Json.obj (setMember ms "projects"
      (Json.obj (delMember pms id)))) from parseJson_stringify _ hrenplain]
  · exact lookup_delMember_self pms id

/-- Closed instance of C9 at a one-node build graph. -/
theorem C9_witness :
    updateAngularJson "old" "old"
        (some (stringifyJson
          (Json.obj [("projects", Json.obj [("old", Json.obj [])])]))) =
      UpdateOutcome.written
        (sVal (Json.obj (setMember [("projects", Json.obj [("old", Json.obj [])])]
          "projects" (Json.obj (delMember [("old", Json.obj [])] "old")))) 0 ++
          ['\n']) ∧
    lookupMember (delMember [("old", Json.obj [])] "old") "old" = none :=
  C9_self_rename_deletes_node "old" [("projects", Json.obj [("old", Json.obj [])])]
    [("old", Json.obj [])] (Json.obj []) (by decide) rfl rfl rfl

/-! ## Positioning the build-target pattern inside serialized documents -/

theorem plain_ne_quote {c : Char} (h : plainChar c = true) : c ≠ '"' := by
  intro e
  subst e
  exact absurd h (by decide)

theorem matchesPattern_head {s : String} (h : matchesPattern s = true) :
    ∃ c t, s.data = c :: t ∧ isLowerAlpha c = true := by
  have h0 : patStart s.data = true := h
  cases hd : s.data with
  | nil => rw [hd] at h0; exact absurd h0 (by decide)
  | cons c t =>
    rw [hd] at h0
    have hsplit : isLowerAlpha c = true ∧ patRest t = true := by
      simpa [patStart] using h0
    exact ⟨c, t, rfl, hsplit.1⟩

theorem pattern_noquote (oldId : String) (hold : matchesPattern oldId = true) :
    '"' ∉ oldId.data ++ [':'] := by
  have hkeb : ∀ c ∈ oldId.data, isKebabChar c = true := patStart_chars hold
  intro hmem
  rcases List.mem_append.mp hmem with hm | hm
  · exact absurd (hkeb '"' hm) (by decide)
  · simp at hm

theorem not_quote_cons {c : Char} (hc : ¬ c = '"') {l : List Char} (hl : '"' ∉ l) :
    '"' ∉ (c :: l) := by
  intro h
  rcases List.mem_cons.mp h with he | hm
  · exact hc he.symm
  · exact hl hm

theorem not_quote_spaces (n : Nat) : '"' ∉ spaces n := by
  intro h
  exact absurd (List.eq_of_mem_replicate h) (by decide)

theorem not_quote_append {a b : List Char} (ha : '"' ∉ a) (hb : '"' ∉ b) :
    '"' ∉ a ++ b := by
  intro h
  rcases List.mem_append.mp h with h | h
  · exact ha h
  · exact hb h

theorem not_quote_single {c : Char} (hc : ¬ c = '"') : '"' ∉ [c] :=
  not_quote_cons hc (by simp)

theorem headNotLower_cons {c : Char} (h : isLowerAlpha c = false) (l : List Char) :
    HeadNotLower (c :: l) := by
  intro d hd
  have he : c = d := Option.some.inj hd
  subst he
  exact h

theorem not_prefix_into_quote {q u : List Char} (w : List Char) (hnq : '"' ∉ q)
    (hnu : '"' ∉ u) (hnp : ¬ q <+: u) : ¬ q <+: (u ++ '"' :: w) := by
  intro h
  by_cases hlen : q.length ≤ u.length
  · exact hnp (List.prefix_of_prefix_length_le h (List.prefix_append u _) hlen)
  · push_neg at hlen
    have hu_q : u <+: q :=
      List.prefix_of_prefix_length_le (List.prefix_append u ('"' :: w)) h (by omega)
    obtain ⟨rest, hrest⟩ := hu_q
    subst hrest
    have hr : rest <+: '"' :: w := (List.prefix_append_right_inj u).mp h
    cases rest with
    | nil => simp at hlen
    | cons c rest' =>
      obtain ⟨hc, -⟩ := List.cons_prefix_cons.mp hr
      subst hc
      exact hnq (by simp)

theorem replaceL_quote_notlower {q : List Char} (r : List Char) {c : Char} {tq : List Char}
    (hq : q = c :: tq) (hlow : isLowerAlpha c = true) (w : List Char)
    (hw : HeadNotLower w) :
    replaceL ('"' :: q) r ('"' :: w) = '"' :: replaceL ('"' :: q) r w := by
  apply replaceL_cons_nomatch
  rintro ⟨-, hpre⟩
  rw [List.isPrefixOf_iff_prefix] at hpre
  have hq2 : q <+: w := (List.cons_prefix_cons.mp hpre).2
  subst hq
  cases w with
  | nil => simp at hq2
  | cons d w' =>
    obtain ⟨hcd, -⟩ := List.cons_prefix_cons.mp hq2
    subst hcd
    exact absurd hlow (by simp [hw c rfl])

/-! ## The build-target substitution acts atom by atom -/

mutual

/-- Running the literal `"oldId:` → `"newId:` substitution over the
serialization of a plain-atoms document (whose keys avoid the pattern)
rewrites exactly the string atoms starting with `oldId:` and leaves the
layout intact: the result is the serialization of the atom-mapped
document. The continuation `kk` must not start with a lowercase letter so
that no match can straddle a closing quote. -/
theorem replaceL_sVal (oldId newId : String)
    (hold : matchesPattern oldId = true)
    (hnew : ∀ c ∈ newId.data, plainChar c = true) :
    ∀ (j : Json) (ind : Nat) (kk : List Char),
      plainAtoms j = true → keysAvoid (oldId.data ++ [':']) j = true →
      HeadNotLower kk →
      replaceL ('"' :: (oldId.data ++ [':'])) ('"' :: (newId.data ++ [':']))
          (sVal j ind ++ kk) =
        sVal (mapAtoms (refMap oldId newId) j) ind ++
          replaceL ('"' :: (oldId.data ++ [':'])) ('"' :: (newId.data ++ [':'])) kk
  | Json.null, ind, kk, hp, hk, hnl =>
    replaceL_quotefree (oldId.data ++ [':']) ('"' :: (newId.data ++ [':']))
      ['n', 'u', 'l', 'l'] kk (by decide)
  | Json.bool true, ind, kk, hp, hk, hnl =>
    replaceL_quotefree (oldId.data ++ [':']) ('"' :: (newId.data ++ [':']))
      ['t', 'r', 'u', 'e'] kk (by decide)
  | Json.bool false, ind, kk, hp, hk, hnl =>
    replaceL_quotefree (oldId.data ++ [':']) ('"' :: (newId.data ++ [':']))
      ['f', 'a', 'l', 's', 'e'] kk (by decide)
  | Json.num n, ind, kk, hp, hk, hnl => by
    have hnoq : '"' ∉ intChars n := by
      intro hmem
      unfold intChars at hmem
      by_cases hn : n < 0
      · rw [if_pos hn] at hmem
        rcases List.mem_cons.mp hmem with he | hm
        · exact absurd he (by decide)
        · exact absurd (natChars_digits n.natAbs '"' hm) (by decide)
      · rw [if_neg hn] at hmem
        exact absurd (natChars_digits n.natAbs '"' hmem) (by decide)
    exact replaceL_quotefree _ _ (intChars n) kk hnoq
  | Json.str s, ind, kk, hp, hk, hnl => by
    have hps : ∀ c ∈ s.data, plainChar c = true := by
      have h0 : s.data.all plainChar = true := hp
      simpa [List.all_eq_true] using h0
    have hnoq_s : '"' ∉ s.data := fun hmem => plain_ne_quote (hps '"' hmem) rfl
    have hnq := pattern_noquote oldId hold
    obtain ⟨ch, th, hhd, hlow⟩ := matchesPattern_head hold
    have hshape : sVal (Json.str s) ind ++ kk = '"' :: (s.data ++ ('"' :: kk)) := by
      show ('"' :: (escapeStr s.data ++ ['"'])) ++ kk = _
      rw [escapeStr_plain hps]
      simp
    rw [hshape]
    by_cases hpre : (oldId.data ++ [':']) <+: s.data
    · obtain ⟨rest0, hrest⟩ := hpre
      have hprefix_bool : ('"' :: (oldId.data ++ [':'])).isPrefixOf
          ('"' :: (s.data ++ ('"' :: kk))) = true := by
        rw [List.isPrefixOf_iff_prefix, List.cons_prefix_cons]
        exact ⟨rfl, List.IsPrefix.trans ⟨rest0, hrest⟩ (List.prefix_append _ _)⟩
      rw [replaceL_cons_match _ (by simp) hprefix_bool]
      have hdrop : ('"' :: (s.data ++ ('"' :: kk))).drop
          ('"' :: (oldId.data ++ [':'])).length = rest0 ++ ('"' :: kk) := by
        rw [List.length_cons, List.drop_succ_cons, ← hrest, List.append_assoc]
        exact List.drop_left _ _
      rw [hdrop]
      have hrest_plain : ∀ c ∈ rest0, plainChar c = true := by
        intro c hc
        exact hps c (by rw [← hrest]; simp [hc])
      have hnoq_rest : '"' ∉ rest0 := fun hmem => plain_ne_quote (hrest_plain '"' hmem) rfl
      rw [replaceL_quotefree _ _ rest0 ('"' :: kk) hnoq_rest]
      rw [replaceL_quote_notlower _
        (show oldId.data ++ [':'] = ch :: (th ++ [':']) by rw [hhd]; rfl) hlow kk hnl]
      have hgs : refMap oldId newId s = String.mk (newId.data ++ ':' :: rest0) := by
        unfold refMap
        rw [if_pos (by rw [List.isPrefixOf_iff_prefix]; exact ⟨rest0, hrest⟩)]
        congr 1
        rw [← hrest, List.drop_left' (by simp)]
      have hplain_new : ∀ c ∈ newId.data ++ ':' :: rest0, plainChar c = true := by
        intro c hc
        rcases List.mem_append.mp hc with hm | hm
        · exact hnew c hm
        · rcases List.mem_cons.mp hm with rfl | hm'
          · decide
          · exact hrest_plain c hm'
      have hRHS : sVal (mapAtoms (refMap oldId newId) (Json.str s)) ind =
          '"' :: ((newId.data ++ ':' :: rest0) ++ ['"']) := by
        show '"' :: (escapeStr (refMap oldId newId s).data ++ ['"']) = _
        rw [hgs]
        show '"' :: (escapeStr (newId.data ++ ':' :: rest0) ++ ['"']) = _
        rw [escapeStr_plain hplain_new]
      rw [hRHS]
      simp
    · rw [replaceL_cons_nomatch _ (by
        rintro ⟨-, hbool⟩
        rw [List.isPrefixOf_iff_prefix] at hbool
        exact not_prefix_into_quote kk hnq hnoq_s hpre
          (List.cons_prefix_cons.mp hbool).2)]
      rw [replaceL_quotefree _ _ s.data ('"' :: kk) hnoq_s]
      rw [replaceL_quote_notlower _
        (show oldId.data ++ [':'] = ch :: (th ++ [':']) by rw [hhd]; rfl) hlow kk hnl]
      have hgs : refMap oldId newId s = s := by
        unfold refMap
        rw [if_neg (fun hb => hpre (List.isPrefixOf_iff_prefix.mp hb))]
      have hRHS : sVal (mapAtoms (refMap oldId newId) (Json.str s)) ind =
          '"' :: (s.data ++ ['"']) := by
        show '"' :: (escapeStr (refMap oldId newId s).data ++ ['"']) = _
        rw [hgs, escapeStr_plain hps]
      rw [hRHS]
      simp
  | Json.arr [], ind, kk, hp, hk, hnl =>
    replaceL_quotefree (oldId.data ++ [':']) ('"' :: (newId.data ++ [':']))
      ['[', ']'] kk (by decide)
  | Json.arr (x :: xs), ind, kk, hp, hk, hnl => by
    have hx : plainAtoms x = true ∧ plainAtomsList xs = true := by
      have h0 : plainAtomsList (x :: xs) = true := hp
      simpa [plainAtomsList] using h0
    have hkx : keysAvoid (oldId.data ++ [':']) x = true ∧
        keysAvoidList (oldId.data ++ [':']) xs = true := by
      have h0 : keysAvoidList (oldId.data ++ [':']) (x :: xs) = true := hk
      simpa [keysAvoidList] using h0
    have hshape : sVal (Json.arr (x :: xs)) ind ++ kk =
        ('[' :: '\n' :: spaces (ind + 2)) ++ (sVal x (ind + 2) ++ (sArrTail xs (ind + 2) ++
          (('\n' :: (spaces ind ++ [']'])) ++ kk))) := by
      show ('[' :: '\n' :: (spaces (ind + 2) ++ (sVal x (ind + 2) ++ (sArrTail xs (ind + 2)
        ++ '\n' :: (spaces ind ++ [']']))))) ++ kk = _
      simp
    rw [hshape, replaceL_quotefree _ _ ('[' :: '\n' :: spaces (ind + 2)) _
      (not_quote_cons (by decide) (not_quote_cons (by decide) (not_quote_spaces (ind + 2))))]
    have hnl1 : HeadNotLower (sArrTail xs (ind + 2) ++ (('\n' :: (spaces ind ++ [']'])) ++ kk)) := by
      cases xs with
      | nil => exact @headNotLower_cons '\n' (by decide) _
      | cons a b => exact @headNotLower_cons ',' (by decide) _
    rw [replaceL_sVal oldId newId hold hnew x (ind + 2)
      (sArrTail xs (ind + 2) ++ (('\n' :: (spaces ind ++ [']'])) ++ kk)) hx.1 hkx.1 hnl1]
    rw [replaceL_sArrTail oldId newId hold hnew xs (ind + 2)
      (('\n' :: (spaces ind ++ [']'])) ++ kk) hx.2 hkx.2
      (@headNotLower_cons '\n' (by decide) _)]
    rw [replaceL_quotefree _ _ ('\n' :: (spaces ind ++ [']'])) kk
      (not_quote_cons (by decide)
        (not_quote_append (not_quote_spaces ind) (not_quote_single (by decide))))]
    show ('[' :: '\n' :: spaces (ind + 2)) ++ (sVal (mapAtoms (refMap oldId newId) x) (ind + 2) ++
      (sArrTail (mapAtomsList (refMap oldId newId) xs) (ind + 2) ++
        (('\n' :: (spaces ind ++ [']'])) ++
          replaceL ('"' :: (oldId.data ++ [':'])) ('"' :: (newId.data ++ [':'])) kk))) =
      ('[' :: '\n' :: (spaces (ind + 2) ++ (sVal (mapAtoms (refMap oldId newId) x) (ind + 2) ++
        (sArrTail (mapAtomsList (refMap oldId newId) xs) (ind + 2)
          ++ '\n' :: (spaces ind ++ [']']))))) ++
        replaceL ('"' :: (oldId.data ++ [':'])) ('"' :: (newId.data ++ [':'])) kk
    simp
  | Json.obj [], ind, kk, hp, hk, hnl =>
    replaceL_quotefree (oldId.data ++ [':']) ('"' :: (newId.data ++ [':']))
      ['\x7b', '\x7d'] kk (by decide)
  | Json.obj ((k1, v) :: ms), ind, kk, hp, hk, hnl => by
    have hm : (k1.data.all plainChar = true ∧ plainAtoms v = true) ∧
        plainAtomsMembers ms = true := by
      have h0 : plainAtomsMembers ((k1, v) :: ms) = true := hp
      simpa [plainAtomsMembers] using h0
    have hkm : ((oldId.data ++ [':']).isPrefixOf k1.data = false ∧
        keysAvoid (oldId.data ++ [':']) v = true) ∧
        keysAvoidMembers (oldId.data ++ [':']) ms = true := by
      have h0 : keysAvoidMembers (oldId.data ++ [':']) ((k1, v) :: ms) = true := hk
      simpa [keysAvoidMembers] using h0
    have hshape : sVal (Json.obj ((k1, v) :: ms)) ind ++ kk =
        ('\x7b' :: '\n' :: spaces (ind + 2)) ++ (sMember (k1, v) (ind + 2) ++
          (sObjTail ms (ind + 2) ++ (('\n' :: (spaces ind ++ ['\x7d'])) ++ kk))) := by
      show ('\x7b' :: '\n' :: (spaces (ind + 2) ++ (sMember (k1, v) (ind + 2) ++
        (sObjTail ms (ind + 2) ++ '\n' :: (spaces ind ++ ['\x7d']))))) ++ kk = _
      simp
    rw [hshape, replaceL_quotefree _ _ ('\x7b' :: '\n' :: spaces (ind + 2)) _
      (not_quote_cons (by decide) (not_quote_cons (by decide) (not_quote_spaces (ind + 2))))]
    have hnl1 : HeadNotLower (sObjTail ms (ind + 2) ++
        (('\n' :: (spaces ind ++ ['\x7d'])) ++ kk)) := by
      cases ms with
      | nil => exact @headNotLower_cons '\n' (by decide) _
      | cons a b => exact @headNotLower_cons ',' (by decide) _
    rw [replaceL_sMember oldId newId hold hnew k1 v (ind + 2)
      (sObjTail ms (ind + 2) ++ (('\n' :: (spaces ind ++ ['\x7d'])) ++ kk))
      hm.1.1 hkm.1.1 hm.1.2 hkm.1.2 hnl1]
    rw [replaceL_sObjTail oldId newId hold hnew ms (ind + 2)
      (('\n' :: (spaces ind ++ ['\x7d'])) ++ kk) hm.2 hkm.2
      (@headNotLower_cons '\n' (by decide) _)]
    rw [replaceL_quotefree _ _ ('\n' :: (spaces ind ++ ['\x7d'])) kk
      (not_quote_cons (by decide)
        (not_quote_append (not_quote_spaces ind) (not_quote_single (by decide))))]
    show ('\x7b' :: '\n' :: spaces (ind + 2)) ++
      (sMember (refMap oldId newId k1, mapAtoms (refMap oldId newId) v) (ind + 2) ++
      (sObjTail (mapAtomsMembers (refMap oldId newId) ms) (ind + 2) ++
        (('\n' :: (spaces ind ++ ['\x7d'])) ++
          replaceL ('"' :: (oldId.data ++ [':'])) ('"' :: (newId.data ++ [':'])) kk))) =
      ('\x7b' :: '\n' :: (spaces (ind + 2) ++
        (sMember (refMap oldId newId k1, mapAtoms (refMap oldId newId) v) (ind + 2) ++
        (sObjTail (mapAtomsMembers (refMap oldId newId) ms) (ind + 2)
          ++ '\n' :: (spaces ind ++ ['\x7d']))))) ++
        replaceL ('"' :: (oldId.data ++ [':'])) ('"' :: (newId.data ++ [':'])) kk
    simp
termination_by j ind kk hp hk hnl => sizeOf j

/-- The substitution over one serialized object member: the key is left
unchanged (keys avoid the pattern), the value is rewritten atom-wise. -/
theorem replaceL_sMember (oldId newId : String)
    (hold : matchesPattern oldId = true)
    (hnew : ∀ c ∈ newId.data, plainChar c = true) :
    ∀ (k1 : String) (v : Json) (ind : Nat) (kk : List Char),
      k1.data.all plainChar = true →
      (oldId.data ++ [':']).isPrefixOf k1.data = false →
      plainAtoms v = true → keysAvoid (oldId.data ++ [':']) v = true →
      HeadNotLower kk →
      replaceL ('"' :: (oldId.data ++ [':'])) ('"' :: (newId.data ++ [':']))
          (sMember (k1, v) ind ++ kk) =
        sMember (refMap oldId newId k1, mapAtoms (refMap oldId newId) v) ind ++
          replaceL ('"' :: (oldId.data ++ [':'])) ('"' :: (newId.data ++ [':'])) kk
  | k1, v, ind, kk, hk1, havoid, hpv, hkv, hnl => by
    have hps : ∀ c ∈ k1.data, plainChar c = true := by
      simpa [List.all_eq_true] using hk1
    have hnoq_k : '"' ∉ k1.data := fun hmem => plain_ne_quote (hps '"' hmem) rfl
    have hnq := pattern_noquote oldId hold
    obtain ⟨ch, th, hhd, hlow⟩ := matchesPattern_head hold
    have hnp : ¬ (oldId.data ++ [':']) <+: k1.data := fun hp2 =>
      absurd (List.isPrefixOf_iff_prefix.mpr hp2) (by simp [havoid])
    have hshape : sMember (k1, v) ind ++ kk =
        '"' :: (k1.data ++ ('"' :: (':' :: ' ' :: (sVal v ind ++ kk)))) := by
      show ('"' :: (escapeStr k1.data ++ ('"' :: ':' :: ' ' :: sVal v ind))) ++ kk = _
      rw [escapeStr_plain hps]
      simp
    rw [hshape]
    rw [replaceL_cons_nomatch _ (by
      rintro ⟨-, hbool⟩
      rw [List.isPrefixOf_iff_prefix] at hbool
      exact not_prefix_into_quote _ hnq hnoq_k hnp
        (List.cons_prefix_cons.mp hbool).2)]
    rw [replaceL_quotefree _ _ k1.data _ hnoq_k]
    rw [replaceL_quote_notlower _
      (show oldId.data ++ [':'] = ch :: (th ++ [':']) by rw [hhd]; rfl) hlow
      (':' :: ' ' :: (sVal v ind ++ kk)) (@headNotLower_cons ':' (by decide) _)]
    rw [show replaceL ('"' :: (oldId.data ++ [':'])) ('"' :: (newId.data ++ [':']))
        (':' :: ' ' :: (sVal v ind ++ kk)) =
        ':' :: ' ' :: replaceL ('"' :: (oldId.data ++ [':'])) ('"' :: (newId.data ++ [':']))
          (sVal v ind ++ kk)
      from replaceL_quotefree _ _ [':', ' '] (sVal v ind ++ kk) (by decide)]
    rw [replaceL_sVal oldId newId hold hnew v ind kk hpv hkv hnl]
    have hgk : refMap oldId newId k1 = k1 := by
      unfold refMap
      rw [if_neg (fun hb => hnp (List.isPrefixOf_iff_prefix.mp hb))]
    rw [hgk]
    show '"' :: (k1.data ++ ('"' :: (':' :: ' ' ::
      (sVal (mapAtoms (refMap oldId newId) v) ind ++
        replaceL ('"' :: (oldId.data ++ [':'])) ('"' :: (newId.data ++ [':'])) kk)))) =
      ('"' :: (escapeStr k1.data ++
        ('"' :: ':' :: ' ' :: sVal (mapAtoms (refMap oldId newId) v) ind))) ++
        replaceL ('"' :: (oldId.data ++ [':'])) ('"' :: (newId.data ++ [':'])) kk
    rw [escapeStr_plain hps]
    simp
termination_by k1 v ind kk hk1 havoid hpv hkv hnl => sizeOf k1 + sizeOf v + 1

/-- The substitution over the serialized tail of an array. -/
theorem replaceL_sArrTail (oldId newId : String)
    (hold : matchesPattern oldId = true)
    (hnew : ∀ c ∈ newId.data, plainChar c = true) :
    ∀ (xs : List Json) (ind : Nat) (kk : List Char),
      plainAtomsList xs = true → keysAvoidList (oldId.data ++ [':']) xs = true →
      HeadNotLower kk →
      replaceL ('"' :: (oldId.data ++ [':'])) ('"' :: (newId.data ++ [':']))
          (sArrTail xs ind ++ kk) =
        sArrTail (mapAtomsList (refMap oldId newId) xs) ind ++
          replaceL ('"' :: (oldId.data ++ [':'])) ('"' :: (newId.data ++ [':'])) kk
  | [], ind, kk, hpl, hkl, hnl => rfl
  | x :: xs, ind, kk, hpl, hkl, hnl => by
    have hx : plainAtoms x = true ∧ plainAtomsList xs = true := by
      simpa [plainAtomsList] using hpl
    have hkx : keysAvoid (oldId.data ++ [':']) x = true ∧
        keysAvoidList (oldId.data ++ [':']) xs = true := by
      simpa [keysAvoidList] using hkl
    have hshape : sArrTail (x :: xs) ind ++ kk =
        (',' :: '\n' :: spaces ind) ++ (sVal x ind ++ (sArrTail xs ind ++ kk)) := by
      show (',' :: '\n' :: (spaces ind ++ (sVal x ind ++ sArrTail xs ind))) ++ kk = _
      simp
    rw [hshape, replaceL_quotefree _ _ (',' :: '\n' :: spaces ind) _
      (not_quote_cons (by decide) (not_quote_cons (by decide) (not_quote_spaces ind)))]
    have hnl1 : HeadNotLower (sArrTail xs ind ++ kk) := by
      cases xs with
      | nil => exact hnl
      | cons a b => exact @headNotLower_cons ',' (by decide) _
    rw [replaceL_sVal oldId newId hold hnew x ind (sArrTail xs ind ++ kk) hx.1 hkx.1 hnl1]
    rw [replaceL_sArrTail oldId newId hold hnew xs ind kk hx.2 hkx.2 hnl]
    show (',' :: '\n' :: spaces ind) ++ (sVal (mapAtoms (refMap oldId newId) x) ind ++
      (sArrTail (mapAtomsList (refMap oldId newId) xs) ind ++
        replaceL ('"' :: (oldId.data ++ [':'])) ('"' :: (newId.data ++ [':'])) kk)) =
      (',' :: '\n' :: (spaces ind ++ (sVal (mapAtoms (refMap oldId newId) x) ind ++
        sArrTail (mapAtomsList (refMap oldId newId) xs) ind))) ++
        replaceL ('"' :: (oldId.data ++ [':'])) ('"' :: (newId.data ++ [':'])) kk
    simp
termination_by xs ind kk hpl hkl hnl => sizeOf xs

/-- The substitution over the serialized tail of an object. -/
theorem replaceL_sObjTail (oldId newId : String)
    (hold : matchesPattern oldId = true)
    (hnew : ∀ c ∈ newId.data, plainChar c = true) :
    ∀ (ms : List (String × Json)) (ind : Nat) (kk : List Char),
      plainAtomsMembers ms = true → keysAvoidMembers (oldId.data ++ [':']) ms = true →
      HeadNotLower kk →
      replaceL ('"' :: (oldId.data ++ [':'])) ('"' :: (newId.data ++ [':']))
          (sObjTail ms ind ++ kk) =
        sObjTail (mapAtomsMembers (refMap oldId newId) ms) ind ++
          replaceL ('"' :: (oldId.data ++ [':'])) ('"' :: (newId.data ++ [':'])) kk
  | [], ind, kk, hpl, hkl, hnl => rfl
  | (k1, v) :: ms, ind, kk, hpl, hkl, hnl => by
    have hm : (k1.data.all plainChar = true ∧ plainAtoms v = true) ∧
        plainAtomsMembers ms = true := by
      simpa [plainAtomsMembers] using hpl
    have hkm : ((oldId.data ++ [':']).isPrefixOf k1.data = false ∧
        keysAvoid (oldId.data ++ [':']) v = true) ∧
        keysAvoidMembers (oldId.data ++ [':']) ms = true := by
      simpa [keysAvoidMembers] using hkl
    have hshape : sObjTail ((k1, v) :: ms) ind ++ kk =
        (',' :: '\n' :: spaces ind) ++ (sMember (k1, v) ind ++ (sObjTail ms ind ++ kk)) := by
      show (',' :: '\n' :: (spaces ind ++ (sMember (k1, v) ind ++ sObjTail ms ind))) ++ kk = _
      simp
    rw [hshape, replaceL_quotefree _ _ (',' :: '\n' :: spaces ind) _
      (not_quote_cons (by decide) (not_quote_cons (by decide) (not_quote_spaces ind)))]
    have hnl1 : HeadNotLower (sObjTail ms ind ++ kk) := by
      cases ms with
      | nil => exact hnl
      | cons a b => exact @headNotLower_cons ',' (by decide) _
    rw [replaceL_sMember oldId newId hold hnew k1 v ind (sObjTail ms ind ++ kk)
      hm.1.1 hkm.1.1 hm.1.2 hkm.1.2 hnl1]
    rw [replaceL_sObjTail oldId newId hold hnew ms ind kk hm.2 hkm.2 hnl]
    show (',' :: '\n' :: spaces ind) ++
      (sMember (refMap oldId newId k1, mapAtoms (refMap oldId newId) v) ind ++
      (sObjTail (mapAtomsMembers (refMap oldId newId) ms) ind ++
        replaceL ('"' :: (oldId.data ++ [':'])) ('"' :: (newId.data ++ [':'])) kk)) =
      (',' :: '\n' :: (spaces ind ++
        (sMember (refMap oldId newId k1, mapAtoms (refMap oldId newId) v) ind ++
        sObjTail (mapAtomsMembers (refMap oldId newId) ms) ind))) ++
        replaceL ('"' :: (oldId.data ++ [':'])) ('"' :: (newId.data ++ [':'])) kk
    simp
termination_by ms ind kk hpl hkl hnl => sizeOf ms

end

/-! ## Lemmas about refMap and the member operations, toward the
build-graph correctness claim -/

theorem kebabChar_plain {c : Char} (h : isKebabChar c = true) : plainChar c = true := by
  have hd : (isLowerAlpha c = true ∨ isDigitCh c = true) ∨ c = '-' := by
    simpa [isKebabChar, isLowerAlnum, Bool.or_eq_true] using h
  have h32 : 32 ≤ c.toNat := by
    rcases hd with (hl | hdg) | hm
    · have hsplit : ('a' ≤ c ∧ c ≤ 'z') := by simpa [isLowerAlpha] using hl
      have : 97 ≤ c.toNat := hsplit.1
      omega
    · have hsplit : ('0' ≤ c ∧ c ≤ '9') := by simpa [isDigitCh] using hdg
      have : 48 ≤ c.toNat := hsplit.1
      omega
    · subst hm
      decide
  have hq : ¬(c = '"') := by
    rintro rfl
    exact absurd h (by decide)
  have hb : ¬(c = '\\') := by
    rintro rfl
    exact absurd h (by decide)
  simp [plainChar, hq, hb]
  omega

theorem pattern_plain {s : String} (h : matchesPattern s = true) :
    ∀ c ∈ s.data, plainChar c = true :=
  fun c hc => kebabChar_plain (patStart_chars h c hc)

theorem refMap_exact (oldId newId : String) (rest : List Char) :
    refMap oldId newId (String.mk (oldId.data ++ ':' :: rest)) =
      String.mk (newId.data ++ ':' :: rest) := by
  unfold refMap
  rw [if_pos (by
    rw [List.isPrefixOf_iff_prefix]
    exact ⟨rest, by simp⟩)]
  congr 1
  rw [show (String.mk (oldId.data ++ ':' :: rest)).data =
    (oldId.data ++ [':']) ++ rest from by simp]
  rw [List.drop_left' (by simp)]

theorem refMap_skip (oldId newId : String) (s : String)
    (h : ¬ (oldId.data ++ [':']) <+: s.data) : refMap oldId newId s = s := by
  unfold refMap
  rw [if_neg (fun hb => h (List.isPrefixOf_iff_prefix.mp hb))]

theorem refMap_plain (oldId newId : String)
    (hnew : ∀ c ∈ newId.data, plainChar c = true)
    (s : String) (hs : ∀ c ∈ s.data, plainChar c = true) :
    ∀ c ∈ (refMap oldId newId s).data, plainChar c = true := by
  unfold refMap
  by_cases hb : (oldId.data ++ [':']).isPrefixOf s.data
  · rw [if_pos hb]
    intro c hc
    rcases List.mem_append.mp hc with hm | hm
    · exact hnew c hm
    · rcases List.mem_cons.mp hm with rfl | hm'
      · decide
      · exact hs c (List.mem_of_mem_drop hm')
  · rw [if_neg hb]
    exact hs

theorem pattern_not_prefix (oldId : String) (s : String)
    (hs : ∀ c ∈ s.data, isKebabChar c = true) :
    (oldId.data ++ [':']).isPrefixOf s.data = false := by
  cases hb : (oldId.data ++ [':']).isPrefixOf s.data with
  | false => rfl
  | true =>
    have hpre := List.isPrefixOf_iff_prefix.mp hb
    have hmem : ':' ∈ s.data := hpre.subset (by simp)
    exact absurd (hs ':' hmem) (by decide)

theorem keysAvoid_lookup (q : List Char) :
    ∀ (l : List (String × Json)) (key : String) (v : Json),
      keysAvoidMembers q l = true → lookupMember l key = some v →
      q.isPrefixOf key.data = false ∧ keysAvoid q v = true := by
  intro l
  induction l with
  | nil => intro key v _ h; simp [lookupMember] at h
  | cons m rest ih =>
    obtain ⟨k', v'⟩ := m
    intro key v hk h
    have hsplit : (q.isPrefixOf k'.data = false ∧ keysAvoid q v' = true) ∧
        keysAvoidMembers q rest = true := by
      simpa [keysAvoidMembers] using hk
    by_cases hkk : k' = key
    · subst hkk
      simp [lookupMember] at h
      rw [← h]
      exact hsplit.1
    · simp only [lookupMember, if_neg hkk] at h
      exact ih key v hsplit.2 h

theorem keysAvoid_setMember (q : List Char) (key : String) (v : Json)
    (hkey : q.isPrefixOf key.data = false) (hv : keysAvoid q v = true) :
    ∀ l : List (String × Json), keysAvoidMembers q l = true →
      keysAvoidMembers q (setMember l key v) = true := by
  intro l
  induction l with
  | nil =>
    intro _
    show keysAvoidMembers q [(key, v)] = true
    simp [keysAvoidMembers, hkey, hv]
  | cons m rest ih =>
    obtain ⟨k', v'⟩ := m
    intro hk
    have hsplit : (q.isPrefixOf k'.data = false ∧ keysAvoid q v' = true) ∧
        keysAvoidMembers q rest = true := by
      simpa [keysAvoidMembers] using hk
    by_cases hkk : k' = key
    · simp only [setMember, if_pos hkk]
      show keysAvoidMembers q ((key, v) :: rest) = true
      simp [keysAvoidMembers, hkey, hv, hsplit.2]
    · simp only [setMember, if_neg hkk]
      show keysAvoidMembers q ((k', v') :: setMember rest key v) = true
      simp [keysAvoidMembers, hsplit.1.1, hsplit.1.2, ih hsplit.2]

theorem keysAvoid_delMember (q : List Char) (key : String) :
    ∀ l : List (String × Json), keysAvoidMembers q l = true →
      keysAvoidMembers q (delMember l key) = true := by
  intro l
  induction l with
  | nil => intro h; exact h
  | cons m rest ih =>
    obtain ⟨k', v'⟩ := m
    intro hk
    have hsplit : (q.isPrefixOf k'.data = false ∧ keysAvoid q v' = true) ∧
        keysAvoidMembers q rest = true := by
      simpa [keysAvoidMembers] using hk
    by_cases hkk : k' = key
    · simp only [delMember, if_pos hkk]
      exact ih hsplit.2
    · simp only [delMember, if_neg hkk]
      show keysAvoidMembers q ((k', v') :: delMember rest key) = true
      simp [keysAvoidMembers, hsplit.1.1, hsplit.1.2, ih hsplit.2]

theorem keysAvoid_memfix (oldId newId : String) :
    ∀ l : List (String × Json),
      keysAvoidMembers (oldId.data ++ [':']) l = true →
      ∀ m ∈ l, refMap oldId newId m.1 = m.1 := by
  intro l
  induction l with
  | nil => intro _ m hm; simp at hm
  | cons m0 rest ih =>
    obtain ⟨k', v'⟩ := m0
    intro hk m hm
    have hsplit : ((oldId.data ++ [':']).isPrefixOf k'.data = false ∧
        keysAvoid (oldId.data ++ [':']) v' = true) ∧
        keysAvoidMembers (oldId.data ++ [':']) rest = true := by
      simpa [keysAvoidMembers] using hk
    rcases List.mem_cons.mp hm with rfl | hm'
    · show refMap oldId newId k' = k'
      unfold refMap
      rw [if_neg (by simp [hsplit.1.1])]
    · exact ih hsplit.2 m hm'

theorem lookup_mapAtomsMembers (g : String → String) :
    ∀ (l : List (String × Json)) (key : String),
      (∀ m ∈ l, g m.1 = m.1) →
      lookupMember (mapAtomsMembers g l) key = (lookupMember l key).map (mapAtoms g) := by
  intro l
  induction l with
  | nil => intro key _; rfl
  | cons m rest ih =>
    obtain ⟨k', v'⟩ := m
    intro key hfix
    have hgk : g k' = k' := hfix (k', v') (by simp)
    show lookupMember ((g k', mapAtoms g v') :: mapAtomsMembers g rest) key = _
    rw [hgk]
    by_cases hkk : k' = key
    · subst hkk
      simp [lookupMember]
    · simp only [lookupMember, if_neg hkk]
      exact ih key (fun m hm => hfix m (by simp [hm]))

theorem keys_mapAtomsMembers_fix (g : String → String) :
    ∀ l : List (String × Json), (∀ m ∈ l, g m.1 = m.1) →
      (mapAtomsMembers g l).map Prod.fst = l.map Prod.fst := by
  intro l
  induction l with
  | nil => intro _; rfl
  | cons m rest ih =>
    obtain ⟨k', v'⟩ := m
    intro hfix
    show (g k', mapAtoms g v').1 :: (mapAtomsMembers g rest).map Prod.fst = _
    rw [show (g k', mapAtoms g v').1 = g k' from rfl, hfix (k', v') (by simp),
      ih (fun m hm => hfix m (by simp [hm]))]
    rfl

theorem mem_keys_setMember (key : String) (v : Json) :
    ∀ (l : List (String × Json)) (x : String),
      x ∈ (setMember l key v).map Prod.fst → x ∈ l.map Prod.fst ∨ x = key := by
  intro l
  induction l with
  | nil =>
    intro x hx
    simp [setMember] at hx
    exact Or.inr hx
  | cons m rest ih =>
    obtain ⟨k', v'⟩ := m
    intro x hx
    by_cases hkk : k' = key
    · simp only [setMember, if_pos hkk] at hx
      rcases List.mem_cons.mp hx with he | hm
      · exact Or.inr he
      · exact Or.inl (by simp; exact Or.inr (by simpa using hm))
    · simp only [setMember, if_neg hkk] at hx
      rcases List.mem_cons.mp hx with he | hm
      · exact Or.inl (by simp [he])
      · rcases ih x hm with h | h
        · exact Or.inl (by simp; exact Or.inr (by simpa using h))
        · exact Or.inr h

theorem nodup_keys_setMember (key : String) (v : Json) :
    ∀ l : List (String × Json), (l.map Prod.fst).Nodup →
      ((setMember l key v).map Prod.fst).Nodup := by
  intro l
  induction l with
  | nil => intro _; simp [setMember]
  | cons m rest ih =>
    obtain ⟨k', v'⟩ := m
    intro hd
    have hd' : k' ∉ rest.map Prod.fst ∧ (rest.map Prod.fst).Nodup := by
      simpa using hd
    by_cases hkk : k' = key
    · subst hkk
      simp only [setMember, if_pos rfl]
      simpa using hd
    · simp only [setMember, if_neg hkk]
      show ((k', v') :: setMember rest key v).map Prod.fst |>.Nodup
      simp only [List.map_cons, List.nodup_cons]
      refine ⟨?_, ih hd'.2⟩
      intro hmem
      rcases mem_keys_setMember key v rest k' hmem with h | h
      · exact hd'.1 h
      · exact hkk h

theorem delMember_sublist (key : String) :
    ∀ l : List (String × Json), List.Sublist (delMember l key) l := by
  intro l
  induction l with
  | nil => exact List.Sublist.refl []
  | cons m rest ih =>
    obtain ⟨k', v'⟩ := m
    by_cases hkk : k' = key
    · simp only [delMember, if_pos hkk]
      exact ih.cons (k', v')
    · simp only [delMember, if_neg hkk]
      exact ih.cons₂ (k', v')

/-! ## The atom map preserves plainness -/

mutual

/-- Atom-mapping by `refMap` keeps every atom free of characters that
would need escaping, provided the new identifier is plain. -/
theorem plainAtoms_mapAtoms (oldId newId : String)
    (hnew : ∀ c ∈ newId.data, plainChar c = true) :
    ∀ j : Json, plainAtoms j = true →
      plainAtoms (mapAtoms (refMap oldId newId) j) = true
  | Json.null, hp => rfl
  | Json.bool b, hp => rfl
  | Json.num n, hp => rfl
  | Json.str s, hp => by
    have hps : ∀ c ∈ s.data, plainChar c = true := by
      have h0 : s.data.all plainChar = true := hp
      simpa [List.all_eq_true] using h0
    show (refMap oldId newId s).data.all plainChar = true
    rw [List.all_eq_true]
    exact fun c hc => refMap_plain oldId newId hnew s hps c hc
  | Json.arr xs, hp => plainAtomsList_mapAtoms oldId newId hnew xs hp
  | Json.obj ms, hp => plainAtomsMembers_mapAtoms oldId newId hnew ms hp
termination_by j hp => sizeOf j

/-- `plainAtoms_mapAtoms` on a list of elements. -/
theorem plainAtomsList_mapAtoms (oldId newId : String)
    (hnew : ∀ c ∈ newId.data, plainChar c = true) :
    ∀ xs : List Json, plainAtomsList xs = true →
      plainAtomsList (mapAtomsList (refMap oldId newId) xs) = true
  | [], hp => rfl
  | x :: xs, hp => by
    have hx : plainAtoms x = true ∧ plainAtomsList xs = true := by
      simpa [plainAtomsList] using hp
    show (plainAtoms (mapAtoms (refMap oldId newId) x) &&
      plainAtomsList (mapAtomsList (refMap oldId newId) xs)) = true
    rw [plainAtoms_mapAtoms oldId newId hnew x hx.1,
      plainAtomsList_mapAtoms oldId newId hnew xs hx.2]
    rfl
termination_by xs hp => sizeOf xs

/-- `plainAtoms_mapAtoms` on a member list. -/
theorem plainAtomsMembers_mapAtoms (oldId newId : String)
    (hnew : ∀ c ∈ newId.data, plainChar c = true) :
    ∀ ms : List (String × Json), plainAtomsMembers ms = true →
      plainAtomsMembers (mapAtomsMembers (refMap oldId newId) ms) = true
  | [], hp => rfl
  | (k, v) :: ms, hp => by
    have hm : (k.data.all plainChar = true ∧ plainAtoms v = true) ∧
        plainAtomsMembers ms = true := by
      simpa [plainAtomsMembers] using hp
    have hkp : ∀ c ∈ k.data, plainChar c = true := by
      simpa [List.all_eq_true] using hm.1.1
    show ((refMap oldId newId k).data.all plainChar &&
      plainAtoms (mapAtoms (refMap oldId newId) v) &&
      plainAtomsMembers (mapAtomsMembers (refMap oldId newId) ms)) = true
    rw [show (refMap oldId newId k).data.all plainChar = true from
      List.all_eq_true.mpr (refMap_plain oldId newId hnew k hkp),
      plainAtoms_mapAtoms oldId newId hnew v hm.1.2,
      plainAtomsMembers_mapAtoms oldId newId hnew ms hm.2]
    rfl
termination_by ms hp => sizeOf ms

end

/-- C2: after a successful build-graph rewrite with distinct valid
identifiers, the rewriter writes the serialization of the renamed,
atom-mapped document; the resulting projects map binds `newId` to the
moved node (atom-rewritten), binds nothing to `oldId`, and keeps its keys
duplicate-free; at the atom level every reference whose identifier
segment equals `oldId` becomes the same reference with `newId`, target
segments preserved verbatim, and every string not starting with the
exact segment `oldId:` — in particular any `oldId-extended:...`
reference — is left unchanged. -/
theorem C2_build_graph_rename (oldId newId : String)
    (ms pms : List (String × Json)) (oldProj : Json)
    (hold : matchesPattern oldId = true) (hnewm : matchesPattern newId = true)
    (hne : oldId ≠ newId)
    (hplain : plainAtoms (Json.obj ms) = true)
    (hkeys : keysAvoid (oldId.data ++ [':']) (Json.obj ms) = true)
    (hproj : lookupMember ms "projects" = some (Json.obj pms))
    (hlook : lookupMember pms oldId = some oldProj)
    (htruthy : oldProj.truthy = true)
    (hnodup : (pms.map Prod.fst).Nodup) :
    updateAngularJson oldId newId (some (stringifyJson (Json.obj ms))) =
      UpdateOutcome.written (sVal (mapAtoms (refMap oldId newId)
        (Json.obj (setMember ms "projects"
          (Json.obj (delMember (setMember pms newId oldProj) oldId))))) 0 ++ ['\n']) ∧
    lookupMember (mapAtomsMembers (refMap oldId newId)
        (delMember (setMember pms newId oldProj) oldId)) newId =
      some (mapAtoms (refMap oldId newId) oldProj) ∧
    lookupMember (mapAtomsMembers (refMap oldId newId)
        (delMember (setMember pms newId oldProj) oldId)) oldId = none ∧
    ((mapAtomsMembers (refMap oldId newId)
        (delMember (setMember pms newId oldProj) oldId)).map Prod.fst).Nodup ∧
    (∀ rest : List Char, refMap oldId newId (String.mk (oldId.data ++ ':' :: rest)) =
      String.mk (newId.data ++ ':' :: rest)) ∧
    (∀ s : String, ¬ (oldId.data ++ [':']) <+: s.data → refMap oldId newId s = s) := by
  have hnew : ∀ c ∈ newId.data, plainChar c = true := pattern_plain hnewm
  have hnewk : ∀ c ∈ newId.data, isKebabChar c = true := patStart_chars hnewm
  have hpms0 : plainAtomsMembers ms = true := hplain
  have hkeys0 : keysAvoidMembers (oldId.data ++ [':']) ms = true := hkeys
  have hpms : plainAtomsMembers pms = true :=
    plain_lookup "projects" (Json.obj pms) ms hpms0 hproj
  have hprojavoid := keysAvoid_lookup (oldId.data ++ [':']) ms "projects"
    (Json.obj pms) hkeys0 hproj
  have hkpms : keysAvoidMembers (oldId.data ++ [':']) pms = true := hprojavoid.2
  have holdavoid := keysAvoid_lookup (oldId.data ++ [':']) pms oldId oldProj hkpms hlook
  have hplainOldProj : plainAtoms oldProj = true := plain_lookup oldId oldProj pms hpms hlook
  have hnewavoid : (oldId.data ++ [':']).isPrefixOf newId.data = false :=
    pattern_not_prefix oldId newId hnewk
  have hpms2 : plainAtomsMembers (setMember pms newId oldProj) = true :=
    plain_setMember newId oldProj (List.all_eq_true.mpr hnew) hplainOldProj pms hpms
  have hkpms2 : keysAvoidMembers (oldId.data ++ [':']) (setMember pms newId oldProj) = true :=
    keysAvoid_setMember (oldId.data ++ [':']) newId oldProj hnewavoid holdavoid.2 pms hkpms
  have hpms1 : plainAtomsMembers (delMember (setMember pms newId oldProj) oldId) = true :=
    plain_delMember oldId (setMember pms newId oldProj) hpms2
  have hkpms1 : keysAvoidMembers (oldId.data ++ [':'])
      (delMember (setMember pms newId oldProj) oldId) = true :=
    keysAvoid_delMember (oldId.data ++ [':']) oldId (setMember pms newId oldProj) hkpms2
  have hplainren : plainAtoms (Json.obj (setMember ms "projects"
      (Json.obj (delMember (setMember pms newId oldProj) oldId)))) = true :=
    plain_setMember "projects" (Json.obj (delMember (setMember pms newId oldProj) oldId))
      (by decide) hpms1 ms hpms0
  have hkren : keysAvoid (oldId.data ++ [':']) (Json.obj (setMember ms "projects"
      (Json.obj (delMember (setMember pms newId oldProj) oldId)))) = true :=
    keysAvoid_setMember (oldId.data ++ [':']) "projects"
      (Json.obj (delMember (setMember pms newId oldProj) oldId))
      hprojavoid.1 hkpms1 ms hkeys0
  have hplainmapped : plainAtoms (mapAtoms (refMap oldId newId)
      (Json.obj (setMember ms "projects"
        (Json.obj (delMember (setMember pms newId oldProj) oldId))))) = true :=
    plainAtoms_mapAtoms oldId newId hnew _ hplainren
  have hfix1 : ∀ m ∈ delMember (setMember pms newId oldProj) oldId,
      refMap oldId newId m.1 = m.1 :=
    keysAvoid_memfix oldId newId (delMember (setMember pms newId oldProj) oldId) hkpms1
  refine ⟨?_, ?_, ?_, ?_, ?_, ?_⟩
  · simp only [updateAngularJson]
    rw [parseJson_stringify (Json.obj ms) hplain]
    simp only []
    rw [hproj]
    simp only []
    rw [if_neg (by simp [Json.truthy])]
    rw [show Json.getMember (Json.obj pms) oldId = some oldProj from hlook]
    simp only []
    rw [if_neg (by simp [htruthy])]
    have hrepl : replaceL (refPattern oldId) (refPattern newId)
        (sVal (Json.obj (setMember ms "projects"
          (Json.obj (delMember (setMember pms newId oldProj) oldId)))) 0) =
        sVal (mapAtoms (refMap oldId newId) (Json.obj (setMember ms "projects"
          (Json.obj (delMember (setMember pms newId oldProj) oldId))))) 0 := by
      have h0 := replaceL_sVal oldId newId hold hnew
        (Json.obj (setMember ms "projects"
          (Json.obj (delMember (setMember pms newId oldProj) oldId)))) 0 []
        hplainren hkren (by intro c hc; simp at hc)
      rw [List.append_nil, replaceL_nil, List.append_nil] at h0
      exact h0
    rw [hrepl]
    rw [show parseJson (String.mk (sVal (mapAtoms (refMap oldId newId)
        (Json.obj (setMember ms "projects"
          (Json.obj (delMember (setMember pms newId oldProj) oldId))))) 0)) =
      some (mapAtoms (refMap oldId newId) (Json.obj (setMember ms "projects"
        (Json.obj (delMember (setMember pms newId oldProj) oldId)))))
      from parseJson_stringify _ hplainmapped]
  · rw [lookup_mapAtomsMembers (refMap oldId newId)
      (delMember (setMember pms newId oldProj) oldId) newId hfix1]
    rw [lookup_delMember_ne (setMember pms newId oldProj) oldId newId (Ne.symm hne)]
    rw [lookup_setMember_self pms newId oldProj]
    rfl
  · rw [lookup_mapAtomsMembers (refMap oldId newId)
      (delMember (setMember pms newId oldProj) oldId) oldId hfix1]
    rw [lookup_delMember_self (setMember pms newId oldProj) oldId]
    rfl
  · rw [keys_mapAtomsMembers_fix (refMap oldId newId)
      (delMember (setMember pms newId oldProj) oldId) hfix1]
    have hnd2 : ((setMember pms newId oldProj).map Prod.fst).Nodup :=
      nodup_keys_setMember newId oldProj pms hnodup
    exact hnd2.sublist ((delMember_sublist oldId (setMember pms newId oldProj)).map Prod.fst)
  · intro rest
    exact refMap_exact oldId newId rest
  · intro s hs
    exact refMap_skip oldId newId s hs

/-- Closed instance of C2 at the spec scenario: nodes `old` and
`old-extended`, renaming `old` to `new`. -/
theorem C2_witness :
    updateAngularJson "old" "new" (some (stringifyJson (Json.obj
      [("projects", Json.obj
        [("old", Json.obj [("buildTarget", Json.str "old:build")]),
         ("old-extended", Json.obj [("buildTarget", Json.str "old-extended:build")])])]))) =
      UpdateOutcome.written (sVal (mapAtoms (refMap "old" "new")
        (Json.obj (setMember
          [("projects", Json.obj
            [("old", Json.obj [("buildTarget", Json.str "old:build")]),
             ("old-extended", Json.obj [("buildTarget", Json.str "old-extended:build")])])]
          "projects"
          (Json.obj (delMember (setMember
            [("old", Json.obj [("buildTarget", Json.str "old:build")]),
             ("old-extended", Json.obj [("buildTarget", Json.str "old-extended:build")])]
            "new" (Json.obj [("buildTarget", Json.str "old:build")])) "old"))))) 0 ++
        ['\n']) ∧
    lookupMember (mapAtomsMembers (refMap "old" "new")
        (delMember (setMember
          [("old", Json.obj [("buildTarget", Json.str "old:build")]),
           ("old-extended", Json.obj [("buildTarget", Json.str "old-extended:build")])]
          "new" (Json.obj [("buildTarget", Json.str "old:build")])) "old")) "new" =
      some (mapAtoms (refMap "old" "new") (Json.obj [("buildTarget", Json.str "old:build")])) ∧
    lookupMember (mapAtomsMembers (refMap "old" "new")
        (delMember (setMember
          [("old", Json.obj [("buildTarget", Json.str "old:build")]),
           ("old-extended", Json.obj [("buildTarget", Json.str "old-extended:build")])]
          "new" (Json.obj [("buildTarget", Json.str "old:build")])) "old")) "old" = none ∧
    ((mapAtomsMembers (refMap "old" "new")
        (delMember (setMember
          [("old", Json.obj [("buildTarget", Json.str "old:build")]),
           ("old-extended", Json.obj [("buildTarget", Json.str "old-extended:build")])]
          "new" (Json.obj [("buildTarget", Json.str "old:build")])) "old")).map Prod.fst).Nodup ∧
    (∀ rest : List Char, refMap "old" "new" (String.mk ("old".data ++ ':' :: rest)) =
      String.mk ("new".data ++ ':' :: rest)) ∧
    (∀ s : String, ¬ ("old".data ++ [':']) <+: s.data → refMap "old" "new" s = s) :=
  C2_build_graph_rename "old" "new"
    [("projects", Json.obj
      [("old", Json.obj [("buildTarget", Json.str "old:build")]),
       ("old-extended", Json.obj [("buildTarget", Json.str "old-extended:build")])])]
    [("old", Json.obj [("buildTarget", Json.str "old:build")]),
     ("old-extended", Json.obj [("buildTarget", Json.str "old-extended:build")])]
    (Json.obj [("buildTarget", Json.str "old:build")])
    (by decide) (by decide) (by decide) (by decide) (by decide) rfl rfl rfl (by decide)

/-! ## Line splitting and joining -/

theorem splitLines_ne_nil : ∀ l : List Char, splitLines l ≠ []
  | [] => by simp [splitLines]
  | c :: t => by
    unfold splitLines
    by_cases hc : c = '\n'
    · simp [hc]
    · rw [if_neg hc]
      cases h : splitLines t with
      | nil => simp
      | cons l ls => simp

theorem splitLines_no_newline : ∀ l : List Char, ∀ piece ∈ splitLines l, '\n' ∉ piece
  | [], piece, hp => by
    simp [splitLines] at hp
    simp [hp]
  | c :: t, piece, hp => by
    unfold splitLines at hp
    by_cases hc : c = '\n'
    · rw [if_pos hc] at hp
      rcases List.mem_cons.mp hp with rfl | hm
      · simp
      · exact splitLines_no_newline t piece hm
    · rw [if_neg hc] at hp
      cases h : splitLines t with
      | nil => exact absurd h (splitLines_ne_nil t)
      | cons l ls =>
        rw [h] at hp
        rcases List.mem_cons.mp hp with rfl | hm
        · intro hmem
          rcases List.mem_cons.mp hmem with he | hm'
          · exact hc he.symm
          · exact splitLines_no_newline t l (by rw [h]; simp) hm'
        · exact splitLines_no_newline t piece (by rw [h]; simp [hm])

theorem splitLines_single : ∀ l : List Char, '\n' ∉ l → splitLines l = [l]
  | [], _ => rfl
  | c :: t, hn => by
    have hc : ¬(c = '\n') := fun e => hn (by simp [e])
    unfold splitLines
    rw [if_neg hc, splitLines_single t (fun hm => hn (by simp [hm]))]

theorem splitLines_append_newline : ∀ (l r : List Char), '\n' ∉ l →
    splitLines (l ++ '\n' :: r) = l :: splitLines r
  | [], r, _ => by
    show splitLines ('\n' :: r) = [] :: splitLines r
    conv_lhs => rw [splitLines]
    rw [if_pos rfl]
  | c :: t, r, hn => by
    have hc : ¬(c = '\n') := fun e => hn (by simp [e])
    show splitLines (c :: (t ++ '\n' :: r)) = (c :: t) :: splitLines r
    conv_lhs => rw [splitLines]
    rw [if_neg hc, splitLines_append_newline t r (fun hm => hn (by simp [hm]))]

theorem splitLines_joinLines : ∀ L : List (List Char),
    (∀ piece ∈ L, '\n' ∉ piece) → L ≠ [] → splitLines (joinLines L) = L
  | [], _, h => absurd rfl h
  | [l], hnf, _ => by
    show splitLines (joinLines [l]) = [l]
    rw [show joinLines [l] = l from rfl]
    exact splitLines_single l (hnf l (by simp))
  | l :: l' :: ls, hnf, _ => by
    show splitLines (l ++ '\n' :: joinLines (l' :: ls)) = l :: l' :: ls
    rw [splitLines_append_newline l (joinLines (l' :: ls)) (hnf l (by simp))]
    rw [splitLines_joinLines (l' :: ls) (fun p hp => hnf p (by simp [hp])) (by simp)]

/-! ## The literal replacement cannot leave the pattern behind when the
replacement shares no character with it -/

theorem replaceLAux_prefix_untouched (p r : List Char) (hr : r ≠ []) :
    ∀ (fuel : Nat) (t w : List Char), w ≠ [] → (∀ c ∈ w, c ∉ r) →
      w <+: replaceLAux p r fuel t → w <+: t := by
  intro fuel
  induction fuel with
  | zero =>
    intro t w hw hdisj hpre
    exact hpre
  | succ f ih =>
    intro t w hw hdisj hpre
    cases t with
    | nil =>
      have h0 : w <+: ([] : List Char) := hpre
      exact absurd (List.prefix_nil.mp h0) hw
    | cons c t' =>
      by_cases hm : p ≠ [] ∧ p.isPrefixOf (c :: t') = true
      · have he : replaceLAux p r (f + 1) (c :: t') =
            r ++ replaceLAux p r f ((c :: t').drop p.length) := by
          simp only [replaceLAux]
          rw [if_pos hm]
        rw [he] at hpre
        cases w with
        | nil => exact absurd rfl hw
        | cons wh wt =>
          cases r with
          | nil => exact absurd rfl hr
          | cons rh rt =>
            have hwr : wh = rh := (List.cons_prefix_cons.mp (by simpa using hpre)).1
            exact absurd (show wh ∈ rh :: rt by simp [hwr]) (hdisj wh (by simp))
      · have he : replaceLAux p r (f + 1) (c :: t') = c :: replaceLAux p r f t' := by
          simp only [replaceLAux]
          rw [if_neg hm]
        rw [he] at hpre
        cases w with
        | nil => exact absurd rfl hw
        | cons wh wt =>
          obtain ⟨hwc, hwt⟩ := List.cons_prefix_cons.mp hpre
          subst hwc
          by_cases hwtn : wt = []
          · subst hwtn
            exact List.cons_prefix_cons.mpr ⟨rfl, List.nil_prefix⟩
          · have hrec : wt <+: t' :=
              ih t' wt hwtn (fun d hd => hdisj d (by simp [hd])) hwt
            exact List.cons_prefix_cons.mpr ⟨rfl, hrec⟩

theorem replaceLAux_no_pattern (p r : List Char) (hp : p ≠ []) (hr : r ≠ [])
    (hdisj : ∀ c ∈ p, c ∉ r) :
    ∀ (fuel : Nat) (t : List Char), t.length ≤ fuel →
      ¬ p <:+: replaceLAux p r fuel t := by
  intro fuel
  induction fuel with
  | zero =>
    intro t ht hinf
    have he : t = [] := List.eq_nil_of_length_eq_zero (Nat.le_zero.mp ht)
    subst he
    exact hp (List.eq_nil_of_infix_nil hinf)
  | succ f ih =>
    intro t ht hinf
    cases t with
    | nil =>
      have h0 : p <:+: ([] : List Char) := hinf
      exact hp (List.eq_nil_of_infix_nil h0)
    | cons c t' =>
      have hp1 : 1 ≤ p.length := List.length_pos.mpr hp
      by_cases hm : p ≠ [] ∧ p.isPrefixOf (c :: t') = true
      · have he : replaceLAux p r (f + 1) (c :: t') =
            r ++ replaceLAux p r f ((c :: t').drop p.length) := by
          simp only [replaceLAux]
          rw [if_pos hm]
        rw [he] at hinf
        obtain ⟨i, hpre⟩ := infix_iff_exists_drop.mp hinf
        rw [List.drop_append_eq_append_drop] at hpre
        by_cases hi : i < r.length
        · have hrd : r.drop i ≠ [] := by
            simp [List.drop_eq_nil_iff]
            omega
          cases hpd : p with
          | nil => exact hp hpd
          | cons ph pt =>
            cases hrd2 : r.drop i with
            | nil => exact hrd hrd2
            | cons dh dt =>
              rw [hpd, hrd2] at hpre
              have hph : ph = dh := (List.cons_prefix_cons.mp (by simpa using hpre)).1
              have hdh_r : dh ∈ r := List.mem_of_mem_drop
                (show dh ∈ r.drop i by rw [hrd2]; simp)
              exact hdisj ph (by rw [hpd]; simp) (by rw [hph]; exact hdh_r)
        · push_neg at hi
          have hrd : r.drop i = [] := by
            simp [List.drop_eq_nil_iff]
            omega
          rw [hrd, List.nil_append] at hpre
          have hlen : ((c :: t').drop p.length).length ≤ f := by
            simp only [List.length_drop, List.length_cons]
            have : t'.length + 1 ≤ f + 1 := ht
            omega
          exact ih _ hlen (infix_iff_exists_drop.mpr ⟨i - r.length, hpre⟩)
      · have he : replaceLAux p r (f + 1) (c :: t') = c :: replaceLAux p r f t' := by
          simp only [replaceLAux]
          rw [if_neg hm]
        rw [he] at hinf
        obtain ⟨i, hpre⟩ := infix_iff_exists_drop.mp hinf
        cases i with
        | zero =>
          cases hpd : p with
          | nil => exact hp hpd
          | cons ph pt =>
            rw [hpd] at hpre
            obtain ⟨hph, hpt⟩ := List.cons_prefix_cons.mp (by simpa using hpre)
            by_cases hptn : pt = []
            · exact hm ⟨hp, List.isPrefixOf_iff_prefix.mpr (by
                rw [hpd, hptn]
                exact List.cons_prefix_cons.mpr ⟨hph, List.nil_prefix⟩)⟩
            · have hw : pt <+: t' := replaceLAux_prefix_untouched (ph :: pt) r hr f t' pt hptn
                (fun d hd => hdisj d (by rw [hpd]; simp [hd])) hpt
              exact hm ⟨hp, List.isPrefixOf_iff_prefix.mpr (by
                rw [hpd]
                exact List.cons_prefix_cons.mpr ⟨hph, hw⟩)⟩
        | succ i' =>
          rw [List.drop_succ_cons] at hpre
          have hlen : t'.length ≤ f := by
            have : t'.length + 1 ≤ f + 1 := ht
            omega
          exact ih t' hlen (infix_iff_exists_drop.mpr ⟨i', hpre⟩)

theorem replaceL_no_occurrence (p r t : List Char) (hp : p ≠ []) (hr : r ≠ [])
    (hdisj : ∀ c ∈ p, c ∉ r) : containsSub p (replaceL p r t) = false := by
  cases hb : containsSub p (replaceL p r t) with
  | false => rfl
  | true =>
    have hinf := containsSub_iff_infix.mp hb
    exact absurd hinf (replaceLAux_no_pattern p r hp hr hdisj t.length t le_rfl)

/-- C6 counterexample: with the valid identifiers `ab` and `xa`, rewriting
the document `abb` succeeds and produces `xab`, which still contains the
old identifier `ab`: the left-to-right literal replacement can recreate
the pattern it removes, so a successful rewrite does not guarantee that no
occurrence of the old identifier remains. -/
theorem C6_counterexample :
    updateReadme "ab" "xa" (some "abb") = UpdateOutcome.written "xab".data ∧
    containsSub "ab".data "xab".data = true :=
  ⟨rfl, rfl⟩

/-- C6 (amended): a successful document rewrite writes exactly the global
literal replacement applied to the text with the rename section excised
and the marker lines dropped; before that replacement no kept line
contains either marker; and when no character of the old identifier
occurs in the new one — so the substitution cannot recreate the pattern —
no occurrence of the old identifier remains in the output. -/
theorem C6_amended (oldId newId : String) (content : String)
    (hp : oldId.data ≠ []) (hr : newId.data ≠ [])
    (hdisj : ∀ c ∈ oldId.data, c ∉ newId.data) :
    updateReadme oldId newId (some content) =
      UpdateOutcome.written (replaceL oldId.data newId.data
        (removeMarkerLines (removeRenameSection content.data))) ∧
    (∀ line ∈ splitLines (removeMarkerLines (removeRenameSection content.data)),
      keepLine line = true) ∧
    containsSub oldId.data (replaceL oldId.data newId.data
      (removeMarkerLines (removeRenameSection content.data))) = false := by
  refine ⟨rfl, ?_, ?_⟩
  · intro line hline
    unfold removeMarkerLines at hline
    cases hf : (splitLines (removeRenameSection content.data)).filter keepLine with
    | nil =>
      rw [hf] at hline
      have h0 : line ∈ ([[]] : List (List Char)) := hline
      rw [List.mem_singleton] at h0
      subst h0
      decide
    | cons f fs =>
      rw [hf] at hline
      have hnf : ∀ piece ∈ f :: fs, '\n' ∉ piece := by
        intro piece hpiece
        have hpm : piece ∈ (splitLines (removeRenameSection content.data)).filter keepLine := by
          rw [hf]
          exact hpiece
        exact splitLines_no_newline _ piece (List.mem_of_mem_filter hpm)
      rw [splitLines_joinLines (f :: fs) hnf (by simp)] at hline
      have hline2 : line ∈ (splitLines (removeRenameSection content.data)).filter keepLine := by
        rw [hf]
        exact hline
      exact List.of_mem_filter hline2
  · exact replaceL_no_occurrence oldId.data newId.data _ hp hr hdisj

/-- Closed instance of the amended C6 at identifiers with disjoint
character sets. -/
theorem C6_witness :
    updateReadme "abc" "xyz" (some "abc docs\nnpm run rename here\nmore abc") =
      UpdateOutcome.written (replaceL "abc".data "xyz".data
        (removeMarkerLines (removeRenameSection
          "abc docs\nnpm run rename here\nmore abc".data))) ∧
    (∀ line ∈ splitLines (removeMarkerLines (removeRenameSection
        "abc docs\nnpm run rename here\nmore abc".data)),
      keepLine line = true) ∧
    containsSub "abc".data (replaceL "abc".data "xyz".data
      (removeMarkerLines (removeRenameSection
        "abc docs\nnpm run rename here\nmore abc".data))) = false :=
  C6_amended "abc" "xyz" "abc docs\nnpm run rename here\nmore abc"
    (by decide) (by decide) (by decide)
